import Mathlib

/-!
Verification of the resource-lifecycle core (ring allocators, parallel
submission queue, deferred-destruction registry, staging composition).

The Rust sources are shallowly embedded: `usize`/`u64` become `Nat`;
subtraction sites that can underflow (a panic in debug builds), `%` by
zero, `debug_assert!` failures, slice indexing out of bounds and `expect`
failures are modelled by an `Option` result whose `none` means "panic".
Vulkan handles are represented by `Nat` identifiers; device calls that
mint fresh objects are modelled by an explicit id counter.
-/

/-! ## Graveyard (graveyard.rs)

A `Frame` is a bucket of handles pending destruction; the registry keeps
`depth` buckets and a cursor.  `begin_frame` embeds the source line
`self.cursor = self.cursor + 1 % self.frames.len();` verbatim; note that
in Rust (as in Lean) `%` binds tighter than `+`.  Destruction of the
drained bucket is modelled by returning its contents. -/

structure Frame where
  buffers : List Nat
  images : List Nat
  image_views : List Nat
  memories : List Nat
deriving DecidableEq, Repr

def Frame.empty : Frame := ⟨[], [], [], []⟩

def Frame.push_buffers (f : Frame) (bs : List Nat) : Frame :=
  { f with buffers := f.buffers ++ bs }

structure Graveyard where
  frames : List Frame
  cursor : Nat
deriving DecidableEq, Repr

def Graveyard.new (depth : Nat) : Graveyard :=
  { frames := List.replicate depth Frame.empty, cursor := 0 }

def Graveyard.depth (g : Graveyard) : Nat := g.frames.length

/-- Embeds `Graveyard::begin_frame`; returns the destroyed bucket and the
updated registry, or `none` when `1 % 0` or the bucket index panics. -/
def Graveyard.begin_frame (g : Graveyard) : Option (Frame × Graveyard) :=
  if g.frames.length = 0 then none
  else
    let cursor := g.cursor + 1 % g.frames.length
    match g.frames[cursor]? with
    | none => none
    | some fr =>
      some (fr, { frames := g.frames.set cursor Frame.empty, cursor := cursor })

/-- Embeds `Graveyard::inter` for a `vk::Buffer` resource (the
`DeferredCleanup` impl appends the handle to the current bucket). -/
def Graveyard.inter (g : Graveyard) (handle : Nat) : Option Graveyard :=
  match g.frames[g.cursor]? with
  | none => none
  | some fr =>
    some { g with frames := g.frames.set g.cursor (fr.push_buffers [handle]) }

/-- Embeds `Graveyard::clear`: `begin_frame` once per frame, collecting
what was destroyed. -/
def Graveyard.clear (g : Graveyard) : Option (List Frame × Graveyard) :=
  (List.range g.frames.length).foldlM
    (fun acc _ => (acc.2.begin_frame).map fun p => (acc.1 ++ [p.1], p.2))
    ([], g)

/-! ## TimelineRing (timeline_ring.rs) -/

structure TlAlloc where
  free_at : Nat
  offset : Nat
deriving DecidableEq, Repr

structure TimelineRing where
  size : Nat
  allocations : List TlAlloc
  head : Nat
  tail : Nat
deriving DecidableEq, Repr

def TimelineRing.new (capacity : Nat) : TimelineRing :=
  { size := capacity + 1, allocations := [], head := 0, tail := 0 }

/-- Embeds `TimelineRing::alloc`.  Result `some (some offset, r')` is a
successful allocation, `some (none, r)` is the `None` ("NoSpace") return,
and `none` is a panic: `align == 0`, or one of the unchecked subtractions
`self.head - size` / `self.size - size` underflowing. -/
def TimelineRing.alloc (r : TimelineRing) (size align free_at : Nat) :
    Option (Option Nat × TimelineRing) :=
  if align = 0 then none
  else if r.tail < r.head then
    if r.head < size then none
    else
      let unaligned := r.head - size
      let aligned := unaligned - unaligned % align
      if aligned ≤ r.tail then some (none, r)
      else some (some aligned,
        { r with head := aligned,
                 allocations := r.allocations ++ [⟨free_at, aligned⟩] })
  else
    if size ≤ r.head then
      let u := r.head - size
      let aligned := u - u % align
      some (some aligned,
        { r with head := aligned,
                 allocations := r.allocations ++ [⟨free_at, aligned⟩] })
    else if r.size < size then none
    else
      let unaligned := r.size - size
      let aligned := unaligned - unaligned % align
      if aligned ≤ r.tail then some (none, r)
      else some (some aligned,
        { r with head := aligned,
                 allocations := r.allocations ++ [⟨free_at, aligned⟩] })

def TimelineRing.capacity (r : TimelineRing) : Nat := r.size - 1

def TimelineRing.free (r : TimelineRing) : Nat :=
  if r.tail < r.head then r.head - r.tail - 1
  else max r.head (r.size - r.tail - 1)

/-- Loop body of `TimelineRing::tick`: pops expired allocations from the
front, moving `tail` onto each freed offset; when `tail` lands on `head`
the ring resets to the empty state (the source's `debug_assert!` that the
collection is then empty is modelled as a panic, `none`, when it fails). -/
def tickAux (size time : Nat) : Nat → Nat → List TlAlloc →
    Option (Nat × Nat × List TlAlloc)
  | head, tail, [] => some (head, tail, [])
  | head, tail, a :: rest =>
    if time < a.free_at then some (head, tail, a :: rest)
    else
      if a.offset = head then
        if rest.isEmpty then some (size - 1, size - 1, [])
        else none
      else tickAux size time head a.offset rest

/-- Embeds `TimelineRing::tick`; `none` is the `debug_assert!` panic. -/
def TimelineRing.tick (r : TimelineRing) (time : Nat) : Option (Bool × TimelineRing) :=
  (tickAux r.size time r.head r.tail r.allocations).map fun x =>
    (x.2.2.length != r.allocations.length,
     { r with head := x.1, tail := x.2.1, allocations := x.2.2 })

/-! ## RingState (ring_state.rs)

Unlike `TimelineRing::alloc`, this variant uses `checked_sub`, so an
oversized request is an allocation failure (`some (none, _)`), never a
panic; the only panic left is `% 0`. -/

structure RingState where
  head : Nat
  tail : Nat
  capacity : Nat
deriving DecidableEq, Repr

def RingState.new (capacity : Nat) : RingState :=
  { head := 0, tail := 0, capacity := capacity }

def RingState.alloc (s : RingState) (size align : Nat) :
    Option (Option Nat × RingState) :=
  if align = 0 then none
  else if s.tail < s.head then
    if s.head < size then some (none, s)
    else
      let unaligned := s.head - size
      let aligned := unaligned - unaligned % align
      if aligned ≤ s.tail then some (none, s)
      else some (some aligned, { s with head := aligned })
  else
    if size ≤ s.head then
      let u := s.head - size
      let aligned := u - u % align
      some (some aligned, { s with head := aligned })
    else if s.capacity < size then some (none, s)
    else
      let unaligned := s.capacity - size
      let aligned := unaligned - unaligned % align
      if aligned ≤ s.tail then some (none, s)
      else some (some aligned, { s with head := aligned })

/-! ## Claim theorems: graveyard cursor bug (C1, C8) -/

/-- C1: the claim says `begin_frame` advances the cursor by one modulo the
depth `D` and an object interred during frame 0 of a depth-3 registry is
destroyed by the third subsequent `begin_frame`.  The code computes
`cursor + (1 % D)` (precedence), so the cursor never wraps: the first two
`begin_frame` calls destroy nothing, and the third indexes `frames[3]`
out of bounds and panics; the interred handle is never destroyed. -/
theorem graveyard_cursor_bug :
    ((Graveyard.new 3).inter 7) =
      some { frames := [⟨[7], [], [], []⟩, Frame.empty, Frame.empty], cursor := 0 } ∧
    ({ frames := [⟨[7], [], [], []⟩, Frame.empty, Frame.empty], cursor := 0 : Graveyard
      }.begin_frame) =
      some (Frame.empty,
        { frames := [⟨[7], [], [], []⟩, Frame.empty, Frame.empty], cursor := 1 }) ∧
    ({ frames := [⟨[7], [], [], []⟩, Frame.empty, Frame.empty], cursor := 1 : Graveyard
      }.begin_frame) =
      some (Frame.empty,
        { frames := [⟨[7], [], [], []⟩, Frame.empty, Frame.empty], cursor := 2 }) ∧
    ({ frames := [⟨[7], [], [], []⟩, Frame.empty, Frame.empty], cursor := 2 : Graveyard
      }.begin_frame) = none := by
  refine ⟨?_, ?_, ?_, ?_⟩ <;> decide

/-- C8: the claim says the cursor stays strictly below the depth so the
bucket indexing cannot panic.  On a depth-2 registry the second
`begin_frame` sets the cursor to 2 (no modulo, by precedence) and the
bucket index panics. -/
theorem graveyard_out_of_bounds :
    ((Graveyard.new 2).begin_frame) =
      some (Frame.empty, { frames := [Frame.empty, Frame.empty], cursor := 1 }) ∧
    ({ frames := [Frame.empty, Frame.empty], cursor := 1 : Graveyard }.begin_frame) =
      none := by
  exact ⟨by decide, by decide⟩

/-! ## Claim theorem: TimelineRing::alloc underflow (C9) -/

/-- C9: the claim says `TimelineRing::alloc` is total for `size ≥ 1`,
`align ≥ 1` and never underflows.  On the freshly constructed capacity-4
ring, `alloc(6, 1, 0)` evaluates `self.size - size = 5 - 6`, which
underflows and panics in debug builds, instead of returning `None`; the
`checked_sub`-based `RingState::alloc` returns `None` on the analogous
request (as its own unit test `larger_than_capacity_while_empty`
demands). -/
theorem timelineRing_alloc_underflow :
    TimelineRing.alloc (TimelineRing.new 4) 6 1 0 = none ∧
    RingState.alloc (RingState.new 128) 256 1 = some (none, RingState.new 128) := by
  exact ⟨by decide, by decide⟩

/-! ## Claim theorems: Scenario A (C4) -/

/-- C4 counterexample: the claim says the first `alloc(3, 1)` on an empty
capacity-4 ring returns offset 0; `TimelineRing` (the allocator with
`tick`/`free_at`) grows downward from the top and returns offset 2. -/
theorem timelineRing_scenarioA_counterexample :
    (TimelineRing.alloc (TimelineRing.new 4) 3 1 0).map Prod.fst = some (some 2) ∧
    ¬ (TimelineRing.alloc (TimelineRing.new 4) 3 1 0).map Prod.fst = some (some 0) := by
  exact ⟨by decide, by decide⟩

/-- C4 amended: on the empty capacity-4 `TimelineRing`, `alloc(3,1)`
returns offset 2, a following `alloc(2,1)` returns NoSpace, a following
`alloc(1,1)` returns offset 1, and after a `tick` at the first
allocation's `free_at` a further `alloc(1,1)` returns offset 0
(wrap-around reuse of the freed space). -/
theorem timelineRing_scenarioA_amended :
    TimelineRing.alloc (TimelineRing.new 4) 3 1 0 =
      some (some 2, { size := 5, allocations := [⟨0, 2⟩], head := 2, tail := 0 }) ∧
    TimelineRing.alloc { size := 5, allocations := [⟨0, 2⟩], head := 2, tail := 0 } 2 1 1 =
      some (none, { size := 5, allocations := [⟨0, 2⟩], head := 2, tail := 0 }) ∧
    TimelineRing.alloc { size := 5, allocations := [⟨0, 2⟩], head := 2, tail := 0 } 1 1 1 =
      some (some 1, { size := 5, allocations := [⟨0, 2⟩, ⟨1, 1⟩], head := 1, tail := 0 }) ∧
    TimelineRing.tick { size := 5, allocations := [⟨0, 2⟩, ⟨1, 1⟩], head := 1, tail := 0 } 0 =
      some (true, { size := 5, allocations := [⟨1, 1⟩], head := 1, tail := 2 }) ∧
    TimelineRing.alloc { size := 5, allocations := [⟨1, 1⟩], head := 1, tail := 2 } 1 1 2 =
      some (some 0, { size := 5, allocations := [⟨1, 1⟩, ⟨2, 0⟩], head := 0, tail := 2 }) := by
  refine ⟨?_, ?_, ?_, ?_, ?_⟩ <;> decide

/-! ## Ghost-instrumented executions of the timeline ring (for C2, C5)

The ring stores only `(free_at, offset)` per pending allocation; to state
range disjointness the executions below additionally carry a ghost record
of each live allocation's size, and of every `(offset, align)` pair ever
returned. -/

structure GAlloc where
  offset : Nat
  size : Nat
  free_at : Nat
deriving DecidableEq, Repr

def GAlloc.proj (g : GAlloc) : TlAlloc := ⟨g.free_at, g.offset⟩

/-- `tickAux` replayed on the ghost list (which additionally records
sizes); `tickAux_proj` shows the two walk in lockstep. -/
def tickAuxG (size time : Nat) : Nat → Nat → List GAlloc →
    Option (Nat × Nat × List GAlloc)
  | head, tail, [] => some (head, tail, [])
  | head, tail, a :: rest =>
    if time < a.free_at then some (head, tail, a :: rest)
    else
      if a.offset = head then
        if rest.isEmpty then some (size - 1, size - 1, [])
        else none
      else tickAuxG size time head a.offset rest

theorem tickAux_proj (size time : Nat) (gh : List GAlloc) :
    ∀ (head tail : Nat),
      tickAux size time head tail (gh.map GAlloc.proj) =
        (tickAuxG size time head tail gh).map fun x => (x.1, x.2.1, x.2.2.map GAlloc.proj) := by
  induction gh with
  | nil => intro head tail; rfl
  | cons a rest ih =>
    intro head tail
    simp only [List.map_cons, tickAux, tickAuxG, GAlloc.proj]
    by_cases h1 : time < a.free_at
    · simp [h1, GAlloc.proj]
    · by_cases h2 : a.offset = head
      · cases rest <;> simp [h1, h2, GAlloc.proj]
      · simp [h1, h2, ih, GAlloc.proj]

/-- Down-growing layout of a run of ghost allocations: each range
`[offset, offset + size)` lies at or below the bound `top`, and each later
(newer) allocation lies at or below the previous one's offset. -/
def Chain : List GAlloc → Nat → Prop
  | [], _ => True
  | g :: rest, top => g.offset + g.size ≤ top ∧ Chain rest g.offset

/-- Offset of the newest allocation of a run (the ring's `head`), with a
default for the empty run. -/
def botG : List GAlloc → Nat → Nat
  | [], d => d
  | g :: rest, _ => botG rest g.offset

theorem botG_le_of_chain : ∀ (l : List GAlloc) (t : Nat), Chain l t → botG l t ≤ t
  | [], _, _ => le_refl _
  | g :: rest, t, h => by
    have h1 := h.1
    have h2 := botG_le_of_chain rest g.offset h.2
    simp only [botG]
    omega

theorem chain_mem_ub : ∀ (l : List GAlloc) (t : Nat), Chain l t →
    ∀ g ∈ l, g.offset + g.size ≤ t
  | [], _, _, g, hg => by cases hg
  | a :: rest, t, h, g, hg => by
    rcases List.mem_cons.mp hg with rfl | hg2
    · exact h.1
    · have h1 := h.1
      have := chain_mem_ub rest a.offset h.2 g hg2
      omega

theorem botG_le_mem : ∀ (l : List GAlloc) (t d : Nat), Chain l t →
    ∀ g ∈ l, botG l d ≤ g.offset
  | [], _, _, _, g, hg => by cases hg
  | a :: rest, t, d, h, g, hg => by
    simp only [botG]
    rcases List.mem_cons.mp hg with rfl | hg2
    · exact botG_le_of_chain rest g.offset h.2
    · exact botG_le_mem rest a.offset a.offset h.2 g hg2

theorem botG_append : ∀ (l : List GAlloc) (g : GAlloc) (d : Nat),
    botG (l ++ [g]) d = g.offset
  | [], g, d => rfl
  | a :: rest, g, d => by
    simp only [List.cons_append, botG]
    exact botG_append rest g a.offset

theorem botG_ne_nil : ∀ (l : List GAlloc) (d₁ d₂ : Nat), l ≠ [] →
    botG l d₁ = botG l d₂
  | [], _, _, h => absurd rfl h
  | _ :: _, _, _, _ => rfl

theorem chain_append : ∀ (l : List GAlloc) (t : Nat) (g : GAlloc), Chain l t →
    g.offset + g.size ≤ botG l t → Chain (l ++ [g]) t
  | [], t, g, _, hb => ⟨hb, trivial⟩
  | a :: rest, t, g, h, hb => by
    refine ⟨h.1, ?_⟩
    exact chain_append rest a.offset g h.2 hb

theorem chain_pairwise : ∀ (l : List GAlloc) (t : Nat), Chain l t →
    l.Pairwise (fun a b => b.offset + b.size ≤ a.offset)
  | [], _, _ => List.Pairwise.nil
  | a :: rest, t, h => by
    refine List.Pairwise.cons ?_ (chain_pairwise rest a.offset h.2)
    intro b hb
    exact chain_mem_ub rest a.offset h.2 b hb

/-- Shape invariant tying a ring state to its ghost allocation list: the
pending deque is the projection of the ghost list, `head`/`tail` are in
bounds, and the ghost list splits into a lower run `lo` capped by `tail`
and an upper run `hi` capped by the buffer size, with `head` the newest
offset (or `tail` when the ring is idle). -/
def RingInv (r : TimelineRing) (gh : List GAlloc) : Prop :=
  r.allocations = gh.map GAlloc.proj ∧
  0 < r.size ∧ r.head < r.size ∧ r.tail < r.size ∧
  (∀ g ∈ gh, g.offset < r.size) ∧
  ∃ lo hi, gh = lo ++ hi ∧ Chain lo r.tail ∧ Chain hi r.size ∧
    (hi = [] → r.head = botG lo r.tail) ∧
    (hi ≠ [] → r.head = botG hi 0 ∧ r.tail < r.head)

theorem inv_new (capacity : Nat) : RingInv (TimelineRing.new capacity) [] := by
  refine ⟨rfl, Nat.succ_pos _, Nat.succ_pos _, Nat.succ_pos _, ?_,
    [], [], rfl, trivial, trivial, ?_, ?_⟩
  · intro g hg; cases hg
  · intro _; rfl
  · intro h; exact absurd rfl h

/-- Ghost extension produced by one `alloc` call: a successful offset is
recorded together with the requested size and `free_at`. -/
def ghostExt (res : Option Nat) (sz fa : Nat) : List GAlloc :=
  match res with
  | some off => [⟨off, sz, fa⟩]
  | none => []

theorem inv_alloc {r : TimelineRing} {gh : List GAlloc} {sz al fa : Nat}
    {res : Option Nat} {r' : TimelineRing}
    (hinv : RingInv r gh) (h : r.alloc sz al fa = some (res, r')) :
    RingInv r' (gh ++ ghostExt res sz fa) := by
  obtain ⟨hproj, hs0, hh, ht, hoffs, lo, hi, hsplit, hclo, hchi, hhe, hhne⟩ := hinv
  simp only [TimelineRing.alloc] at h
  split_ifs at h with hal htl hhs hle hsh hss hle2
  · -- tail < head, head ≥ sz, aligned ≤ tail : NoSpace
    simp only [Option.some.injEq, Prod.mk.injEq] at h
    obtain ⟨hres, hr⟩ := h
    subst hres; subst hr
    simp only [ghostExt, List.append_nil]
    exact ⟨hproj, hs0, hh, ht, hoffs, lo, hi, hsplit, hclo, hchi, hhe, hhne⟩
  · -- tail < head, head ≥ sz, aligned > tail : success in branch 1
    simp only [Option.some.injEq, Prod.mk.injEq] at h
    obtain ⟨hres, hr⟩ := h
    subst hres; subst hr
    have hhine : hi ≠ [] := by
      intro hnil
      have := botG_le_of_chain lo r.tail hclo
      have := hhe hnil
      omega
    obtain ⟨hheq, htlt⟩ := hhne hhine
    set aligned := r.head - sz - (r.head - sz) % al with haligned
    have halle : aligned ≤ r.head - sz := Nat.sub_le _ _
    have hszle : sz ≤ r.head := by omega
    unfold RingInv
    refine ⟨?_, hs0, ?_, ht, ?_, lo, hi ++ [⟨aligned, sz, fa⟩], ?_, hclo, ?_, ?_, ?_⟩
    · simp [hproj, ghostExt, GAlloc.proj]
    · simp only []
      omega
    · intro g hg
      simp only [ghostExt] at hg
      rcases List.mem_append.mp hg with hg1 | hg2
      · exact hoffs g hg1
      · simp only [List.mem_singleton] at hg2
        subst hg2
        simp only []
        omega
    · simp [hsplit, ghostExt]
    · refine chain_append hi r.size _ hchi ?_
      have : botG hi r.size = botG hi 0 := botG_ne_nil hi _ _ hhine
      rw [this, ← hheq]
      simp only []
      omega
    · intro hcon
      exact absurd hcon (by simp)
    · intro _
      constructor
      · rw [botG_append]
      · simp only []
        omega
  · -- head ≤ tail, sz ≤ head : success in branch 2
    simp only [Option.some.injEq, Prod.mk.injEq] at h
    obtain ⟨hres, hr⟩ := h
    subst hres; subst hr
    have hhie : hi = [] := by
      by_contra hne
      obtain ⟨_, h2⟩ := hhne hne
      omega
    subst hhie
    simp only [List.append_nil] at hsplit
    subst hsplit
    have hheq := hhe rfl
    set aligned := r.head - sz - (r.head - sz) % al with haligned
    have halle : aligned ≤ r.head - sz := Nat.sub_le _ _
    unfold RingInv
    refine ⟨?_, hs0, ?_, ht, ?_, gh ++ [⟨aligned, sz, fa⟩], [], ?_, ?_, trivial, ?_, ?_⟩
    · simp [hproj, ghostExt, GAlloc.proj]
    · show aligned < r.size
      omega
    · intro g hg
      simp only [ghostExt] at hg
      rcases List.mem_append.mp hg with hg1 | hg2
      · exact hoffs g hg1
      · simp only [List.mem_singleton] at hg2
        subst hg2
        show aligned < r.size
        omega
    · simp [ghostExt]
    · refine chain_append gh r.tail _ hclo ?_
      show aligned + sz ≤ botG gh r.tail
      rw [← hheq]
      omega
    · intro _
      show aligned = botG (gh ++ [⟨aligned, sz, fa⟩]) r.tail
      rw [botG_append]
    · intro hcon
      exact absurd rfl hcon
  · -- head ≤ tail, head < sz, sz ≤ size, aligned ≤ tail : NoSpace
    simp only [Option.some.injEq, Prod.mk.injEq] at h
    obtain ⟨hres, hr⟩ := h
    subst hres; subst hr
    simp only [ghostExt, List.append_nil]
    exact ⟨hproj, hs0, hh, ht, hoffs, lo, hi, hsplit, hclo, hchi, hhe, hhne⟩
  · -- head ≤ tail, head < sz, sz ≤ size, aligned > tail : success in branch 3
    simp only [Option.some.injEq, Prod.mk.injEq] at h
    obtain ⟨hres, hr⟩ := h
    subst hres; subst hr
    have hhie : hi = [] := by
      by_contra hne
      obtain ⟨_, h2⟩ := hhne hne
      omega
    subst hhie
    simp only [List.append_nil] at hsplit
    subst hsplit
    set aligned := r.size - sz - (r.size - sz) % al with haligned
    have halle : aligned ≤ r.size - sz := Nat.sub_le _ _
    have hsz1 : 1 ≤ sz := by omega
    unfold RingInv
    refine ⟨?_, hs0, ?_, ht, ?_, gh, [⟨aligned, sz, fa⟩], ?_, hclo, ?_, ?_, ?_⟩
    · simp [hproj, ghostExt, GAlloc.proj]
    · show aligned < r.size
      omega
    · intro g hg
      simp only [ghostExt] at hg
      rcases List.mem_append.mp hg with hg1 | hg2
      · exact hoffs g hg1
      · simp only [List.mem_singleton] at hg2
        subst hg2
        show aligned < r.size
        omega
    · simp [ghostExt]
    · refine ⟨?_, trivial⟩
      show aligned + sz ≤ r.size
      omega
    · intro hcon
      exact absurd hcon (by simp)
    · intro _
      refine ⟨rfl, ?_⟩
      show r.tail < aligned
      omega

theorem tickAuxG_drop (size time : Nat) :
    ∀ (l : List GAlloc) (head tail : Nat) {h' t' : Nat} {rem : List GAlloc},
      tickAuxG size time head tail l = some (h', t', rem) →
      rem = l.dropWhile (fun a => decide (a.free_at ≤ time))
  | [], head, tail, h', t', rem, h => by
    simp only [tickAuxG, Option.some.injEq, Prod.mk.injEq] at h
    obtain ⟨rfl, rfl, rfl⟩ := h
    rfl
  | a :: rest, head, tail, h', t', rem, h => by
    simp only [tickAuxG] at h
    by_cases h1 : time < a.free_at
    · rw [if_pos h1] at h
      simp only [Option.some.injEq, Prod.mk.injEq] at h
      obtain ⟨rfl, rfl, rfl⟩ := h
      rw [List.dropWhile_cons]
      simp [show ¬a.free_at ≤ time by omega]
    · rw [if_neg h1] at h
      have hdw : List.dropWhile (fun a => decide (a.free_at ≤ time)) (a :: rest)
          = List.dropWhile (fun a => decide (a.free_at ≤ time)) rest := by
        rw [List.dropWhile_cons]
        simp [show a.free_at ≤ time by omega]
      rw [hdw]
      by_cases h2 : a.offset = head
      · rw [if_pos h2] at h
        cases rest with
        | nil =>
          simp only [List.isEmpty_nil, if_true] at h
          simp only [Option.some.injEq, Prod.mk.injEq] at h
          obtain ⟨rfl, rfl, rfl⟩ := h
          rfl
        | cons b rest2 => simp at h
      · rw [if_neg h2] at h
        exact tickAuxG_drop size time rest head a.offset h

theorem tickAuxG_inv_flat (size time : Nat) :
    ∀ (lo : List GAlloc) (head tail : Nat) {h' t' : Nat} {rem : List GAlloc},
      0 < size → head < size → tail < size →
      Chain lo tail → head = botG lo tail →
      tickAuxG size time head tail lo = some (h', t', rem) →
      Chain rem t' ∧ h' = botG rem t' ∧ h' < size ∧ t' < size
  | [], head, tail, h', t', rem, _, hh, ht, _, hb, h => by
    simp only [tickAuxG, Option.some.injEq, Prod.mk.injEq] at h
    obtain ⟨rfl, rfl, rfl⟩ := h
    exact ⟨trivial, hb, hh, ht⟩
  | a :: rest, head, tail, h', t', rem, hs0, hh, ht, hc, hb, h => by
    simp only [tickAuxG] at h
    by_cases h1 : time < a.free_at
    · rw [if_pos h1] at h
      simp only [Option.some.injEq, Prod.mk.injEq] at h
      obtain ⟨rfl, rfl, rfl⟩ := h
      exact ⟨hc, hb, hh, ht⟩
    · rw [if_neg h1] at h
      by_cases h2 : a.offset = head
      · rw [if_pos h2] at h
        cases rest with
        | nil =>
          simp only [List.isEmpty_nil, if_true] at h
          simp only [Option.some.injEq, Prod.mk.injEq] at h
          obtain ⟨rfl, rfl, rfl⟩ := h
          refine ⟨trivial, rfl, ?_, ?_⟩ <;> omega
        | cons b rest2 => simp at h
      · rw [if_neg h2] at h
        have ha : a.offset < size := by
          have := hc.1
          omega
        exact tickAuxG_inv_flat size time rest head a.offset hs0 hh ha hc.2 hb h

theorem tickAuxG_inv_split (size time : Nat) :
    ∀ (lo hi : List GAlloc) (head tail : Nat) {h' t' : Nat} {rem : List GAlloc},
      0 < size → head < size → tail < size →
      Chain lo tail → Chain hi size →
      (∀ g ∈ hi, g.offset < size) →
      (hi = [] → head = botG lo tail) →
      (hi ≠ [] → head = botG hi 0 ∧ tail < head) →
      tickAuxG size time head tail (lo ++ hi) = some (h', t', rem) →
      ∃ lo' hi', rem = lo' ++ hi' ∧ Chain lo' t' ∧ Chain hi' size ∧
        (∀ g ∈ hi', g.offset < size) ∧
        (hi' = [] → h' = botG lo' t') ∧ (hi' ≠ [] → h' = botG hi' 0 ∧ t' < h') ∧
        h' < size ∧ t' < size
  | [], hi, head, tail, h', t', rem, hs0, hh, ht, hclo, hchi, hoffs, hhe, hhne, h => by
    rw [List.nil_append] at h
    cases hi with
    | nil =>
      simp only [tickAuxG, Option.some.injEq, Prod.mk.injEq] at h
      obtain ⟨rfl, rfl, rfl⟩ := h
      refine ⟨[], [], rfl, trivial, trivial, ?_, ?_, ?_, hh, ht⟩
      · intro g hg; cases hg
      · intro _; exact hhe rfl
      · intro hc; exact absurd rfl hc
    | cons a hi2 =>
      obtain ⟨hbh, htlt⟩ := hhne (by simp)
      simp only [tickAuxG] at h
      by_cases h1 : time < a.free_at
      · rw [if_pos h1] at h
        simp only [Option.some.injEq, Prod.mk.injEq] at h
        obtain ⟨rfl, rfl, rfl⟩ := h
        refine ⟨[], a :: hi2, rfl, trivial, hchi, hoffs, ?_, ?_, hh, ht⟩
        · intro hc; cases hc
        · intro _; exact ⟨hbh, htlt⟩
      · rw [if_neg h1] at h
        by_cases h2 : a.offset = head
        · rw [if_pos h2] at h
          cases hi2 with
          | nil =>
            simp only [List.isEmpty_nil, if_true] at h
            simp only [Option.some.injEq, Prod.mk.injEq] at h
            obtain ⟨rfl, rfl, rfl⟩ := h
            refine ⟨[], [], rfl, trivial, trivial, ?_, ?_, ?_, by omega, by omega⟩
            · intro g hg; cases hg
            · intro _; rfl
            · intro hc; exact absurd rfl hc
          | cons b hi3 => simp at h
        · rw [if_neg h2] at h
          have ha : a.offset < size := hoffs a (by simp)
          have hres := tickAuxG_inv_flat size time hi2 head a.offset hs0 hh ha
            hchi.2 hbh h
          refine ⟨rem, [], (List.append_nil rem).symm, hres.1, trivial, ?_, ?_, ?_,
            hres.2.2.1, hres.2.2.2⟩
          · intro g hg; cases hg
          · intro _; exact hres.2.1
          · intro hc; exact absurd rfl hc
  | a :: lo2, hi, head, tail, h', t', rem, hs0, hh, ht, hclo, hchi, hoffs, hhe, hhne, h => by
    rw [List.cons_append] at h
    simp only [tickAuxG] at h
    by_cases h1 : time < a.free_at
    · rw [if_pos h1] at h
      simp only [Option.some.injEq, Prod.mk.injEq] at h
      obtain ⟨rfl, rfl, rfl⟩ := h
      exact ⟨a :: lo2, hi, rfl, hclo, hchi, hoffs, hhe, hhne, hh, ht⟩
    · rw [if_neg h1] at h
      by_cases h2 : a.offset = head
      · rw [if_pos h2] at h
        cases hlh : lo2 ++ hi with
        | nil =>
          rw [hlh] at h
          simp only [List.isEmpty_nil, if_true] at h
          simp only [Option.some.injEq, Prod.mk.injEq] at h
          obtain ⟨rfl, rfl, rfl⟩ := h
          refine ⟨[], [], rfl, trivial, trivial, ?_, ?_, ?_, by omega, by omega⟩
          · intro g hg; cases hg
          · intro _; rfl
          · intro hc; exact absurd rfl hc
        | cons b l3 =>
          rw [hlh] at h
          simp at h
      · rw [if_neg h2] at h
        have ha : a.offset < size := by
          have := hclo.1
          omega
        refine tickAuxG_inv_split size time lo2 hi head a.offset hs0 hh ha
          hclo.2 hchi hoffs ?_ ?_ h
        · intro hnil
          exact hhe hnil
        · intro hne
          obtain ⟨hb2, ht2⟩ := hhne hne
          have := hclo.1
          exact ⟨hb2, by omega⟩

/-- Tick preserves the ring invariant; the surviving ghost allocations are
exactly those the loop did not reach. -/
theorem inv_tick {r : TimelineRing} {gh : List GAlloc} {time : Nat}
    {b : Bool} {r' : TimelineRing}
    (hinv : RingInv r gh) (h : r.tick time = some (b, r')) :
    RingInv r' (gh.dropWhile (fun a => decide (a.free_at ≤ time))) := by
  obtain ⟨hproj, hs0, hh, ht, hoffs, lo, hi, hsplit, hclo, hchi, hhe, hhne⟩ := hinv
  simp only [TimelineRing.tick, hproj, tickAux_proj] at h
  cases hg : tickAuxG r.size time r.head r.tail gh with
  | none =>
    rw [hg] at h
    exact absurd h (by simp)
  | some x =>
    obtain ⟨h2, t2, remg⟩ := x
    rw [hg] at h
    simp only [Option.map_some', Option.some.injEq, Prod.mk.injEq] at h
    obtain ⟨hb, hr'⟩ := h
    have hdrop := tickAuxG_drop r.size time gh r.head r.tail hg
    rw [hsplit] at hg
    have hoffshi : ∀ g ∈ hi, g.offset < r.size := by
      intro g hgm
      exact hoffs g (by rw [hsplit]; exact List.mem_append.mpr (Or.inr hgm))
    obtain ⟨lo', hi', hrem, hclo', hchi', hoffs', hhe', hhne', hh2, ht2b⟩ :=
      tickAuxG_inv_split r.size time lo hi r.head r.tail hs0 hh ht hclo hchi
        hoffshi hhe hhne hg
    rw [← hr']
    rw [← hdrop]
    refine ⟨rfl, hs0, hh2, ht2b, ?_, lo', hi', hrem, hclo', hchi', hhe', hhne'⟩
    intro g hgm
    have : g ∈ gh := (List.dropWhile_sublist _).subset (hdrop ▸ hgm)
    exact hoffs g this

/-- Live ghost allocations of an invariant-satisfying state have pairwise
disjoint byte ranges. -/
theorem inv_pairwise {r : TimelineRing} {gh : List GAlloc} (hinv : RingInv r gh) :
    gh.Pairwise
      (fun a b => a.offset + a.size ≤ b.offset ∨ b.offset + b.size ≤ a.offset) := by
  obtain ⟨_, _, _, _, _, lo, hi, hsplit, hclo, hchi, _, hhne⟩ := hinv
  subst hsplit
  rw [List.pairwise_append]
  refine ⟨?_, ?_, ?_⟩
  · exact (chain_pairwise lo r.tail hclo).imp fun h => Or.inr h
  · exact (chain_pairwise hi r.size hchi).imp fun h => Or.inr h
  · intro a ha b hb
    have hne : hi ≠ [] := by
      intro hnil
      rw [hnil] at hb
      cases hb
    obtain ⟨hbh, htlt⟩ := hhne hne
    have h1 : a.offset + a.size ≤ r.tail := chain_mem_ub lo r.tail hclo a ha
    have h2 : botG hi 0 ≤ b.offset := botG_le_mem hi r.size 0 hchi b hb
    left
    omega

theorem aligned_mod {u a : Nat} (_ha : ¬a = 0) : (u - u % a) % a = 0 := by
  have h1 := Nat.div_add_mod u a
  have h2 : u - u % a = a * (u / a) := by omega
  rw [h2]
  exact Nat.mul_mod_right _ _

/-- A successful allocation was made with a nonzero alignment and returns
an offset that is a multiple of it. -/
theorem alloc_some_aligned {r : TimelineRing} {sz al fa off : Nat} {r' : TimelineRing}
    (h : r.alloc sz al fa = some (some off, r')) : ¬al = 0 ∧ off % al = 0 := by
  simp only [TimelineRing.alloc] at h
  split_ifs at h with hal htl hhs hle hsh hss hle2 <;>
    simp only [Option.some.injEq, Prod.mk.injEq] at h
  all_goals first
  | exact absurd h.1 (by simp)
  | (refine ⟨hal, ?_⟩
     rw [← h.1]
     exact aligned_mod hal)

/-! ## Executions of the timeline ring -/

inductive TlOp where
  | alloc (size align free_at : Nat)
  | tick (time : Nat)
deriving DecidableEq, Repr

def TlOp.freeAt? : TlOp → Option Nat
  | .alloc _ _ fa => some fa
  | .tick _ => none

structure TlTrace where
  ring : TimelineRing
  live : List GAlloc
  rets : List (Nat × Nat)
deriving DecidableEq, Repr

/-- One instrumented step: runs the source operation on the ring and
mirrors it on the ghost data; `none` propagates a panic. -/
def stepT (s : TlTrace) : TlOp → Option TlTrace
  | .alloc size align free_at =>
    match s.ring.alloc size align free_at with
    | none => none
    | some (res, r') =>
      some { ring := r', live := s.live ++ ghostExt res size free_at,
             rets := s.rets ++ (match res with
                                | some off => [(off, align)]
                                | none => []) }
  | .tick time =>
    match s.ring.tick time with
    | none => none
    | some (_, r') =>
      some { s with ring := r',
                    live := s.live.dropWhile (fun a => decide (a.free_at ≤ time)) }

def runT (capacity : Nat) (ops : List TlOp) : Option TlTrace :=
  ops.foldlM stepT { ring := TimelineRing.new capacity, live := [], rets := [] }

def TraceInv (s : TlTrace) : Prop :=
  RingInv s.ring s.live ∧ ∀ p ∈ s.rets, p.2 ≠ 0 ∧ p.1 % p.2 = 0

theorem stepT_inv {s : TlTrace} {op : TlOp} {s' : TlTrace}
    (hs : TraceInv s) (h : stepT s op = some s') : TraceInv s' := by
  cases op with
  | alloc sz al fa =>
    simp only [stepT] at h
    cases ha : s.ring.alloc sz al fa with
    | none => rw [ha] at h; exact absurd h (by simp)
    | some pr =>
      obtain ⟨res, r'⟩ := pr
      rw [ha] at h
      simp only [Option.some.injEq] at h
      subst h
      refine ⟨inv_alloc hs.1 ha, ?_⟩
      intro p hp
      rcases List.mem_append.mp hp with h1 | h2
      · exact hs.2 p h1
      · cases res with
        | none => cases h2
        | some off =>
          simp only [List.mem_singleton] at h2
          subst h2
          have hres := alloc_some_aligned ha
          exact ⟨hres.1, hres.2⟩
  | tick time =>
    simp only [stepT] at h
    cases ha : s.ring.tick time with
    | none => rw [ha] at h; exact absurd h (by simp)
    | some pr =>
      obtain ⟨b, r'⟩ := pr
      rw [ha] at h
      simp only [Option.some.injEq] at h
      subst h
      exact ⟨inv_tick hs.1 ha, hs.2⟩

theorem runT_inv_aux :
    ∀ (ops : List TlOp) (s : TlTrace) {s' : TlTrace},
      TraceInv s → ops.foldlM stepT s = some s' → TraceInv s'
  | [], s, s', hs, h => by
    simp only [List.foldlM_nil, Option.pure_def, Option.some.injEq] at h
    subst h
    exact hs
  | op :: ops, s, s', hs, h => by
    rw [List.foldlM_cons] at h
    cases hstep : stepT s op with
    | none => rw [hstep] at h; exact absurd h (by simp)
    | some s1 =>
      rw [hstep] at h
      simp only [Option.bind_eq_bind, Option.some_bind] at h
      exact runT_inv_aux ops s1 (stepT_inv hs hstep) h

/-- C2: along every panic-free execution of `alloc`/`tick` calls whose
successful allocations carry non-decreasing `free_at` values, the byte
ranges of simultaneously live allocations are pairwise disjoint, and every
offset ever returned by `alloc` is a multiple of the requested alignment. -/
theorem timelineRing_no_overlap_aligned (capacity : Nat) (ops : List TlOp)
    (st : TlTrace)
    (_hmono : List.Pairwise (· ≤ ·) (ops.filterMap TlOp.freeAt?))
    (hrun : runT capacity ops = some st) :
    st.live.Pairwise
      (fun a b => a.offset + a.size ≤ b.offset ∨ b.offset + b.size ≤ a.offset) ∧
    ∀ p ∈ st.rets, p.1 % p.2 = 0 := by
  have hinit : TraceInv { ring := TimelineRing.new capacity, live := [], rets := [] } := by
    refine ⟨inv_new capacity, ?_⟩
    intro p hp
    cases hp
  have h := runT_inv_aux ops _ hinit hrun
  exact ⟨inv_pairwise h.1, fun p hp => (h.2 p hp).2⟩

/-- C2 witness: the disjointness and alignment theorem applied to a
concrete four-operation run on a capacity-4 ring. -/
theorem timelineRing_no_overlap_aligned_witness :
    List.Pairwise (· ≤ ·)
      (([TlOp.alloc 2 1 0, TlOp.alloc 1 2 1, TlOp.tick 0,
         TlOp.alloc 1 1 2]).filterMap TlOp.freeAt?) ∧
    runT 4 [TlOp.alloc 2 1 0, TlOp.alloc 1 2 1, TlOp.tick 0, TlOp.alloc 1 1 2] =
      some { ring := { size := 5,
                       allocations := [⟨1, 2⟩, ⟨2, 1⟩], head := 1, tail := 3 },
             live := [⟨2, 1, 1⟩, ⟨1, 1, 2⟩],
             rets := [(3, 1), (2, 2), (1, 1)] } ∧
    (List.Pairwise
      (fun a b => a.offset + a.size ≤ b.offset ∨ b.offset + b.size ≤ a.offset)
      ([⟨2, 1, 1⟩, ⟨1, 1, 2⟩] : List GAlloc) ∧
     ∀ p ∈ ([(3, 1), (2, 2), (1, 1)] : List (Nat × Nat)), p.1 % p.2 = 0) :=
  ⟨by decide, by decide,
   timelineRing_no_overlap_aligned 4
     [TlOp.alloc 2 1 0, TlOp.alloc 1 2 1, TlOp.tick 0, TlOp.alloc 1 1 2]
     { ring := { size := 5, allocations := [⟨1, 2⟩, ⟨2, 1⟩], head := 1, tail := 3 },
       live := [⟨2, 1, 1⟩, ⟨1, 1, 2⟩],
       rets := [(3, 1), (2, 2), (1, 1)] }
     (by decide) (by decide)⟩

/-- Characterization of the tick loop on an arbitrary pending list: the
survivors are the `dropWhile` suffix; an empty expired prefix leaves
`head`/`tail` alone; otherwise the loop either resets (when the last
expired offset equals `head`, forcing the survivors empty) or moves `tail`
onto the last expired offset. -/
theorem tickAux_char (size time : Nat) :
    ∀ (l : List TlAlloc) (head tail : Nat) {h' t' : Nat} {rem : List TlAlloc},
      tickAux size time head tail l = some (h', t', rem) →
      rem = l.dropWhile (fun a => decide (a.free_at ≤ time)) ∧
      (l.takeWhile (fun a => decide (a.free_at ≤ time)) = [] → h' = head ∧ t' = tail) ∧
      (∀ g, (l.takeWhile (fun a => decide (a.free_at ≤ time))).getLast? = some g →
        (g.offset = head → h' = size - 1 ∧ t' = size - 1 ∧ rem = []) ∧
        (¬ g.offset = head → h' = head ∧ t' = g.offset))
  | [], head, tail, h', t', rem, h => by
    simp only [tickAux, Option.some.injEq, Prod.mk.injEq] at h
    obtain ⟨rfl, rfl, rfl⟩ := h
    refine ⟨rfl, fun _ => ⟨rfl, rfl⟩, ?_⟩
    intro g hg
    exact absurd hg (by simp)
  | a :: rest, head, tail, h', t', rem, h => by
    simp only [tickAux] at h
    by_cases h1 : time < a.free_at
    · rw [if_pos h1] at h
      simp only [Option.some.injEq, Prod.mk.injEq] at h
      obtain ⟨rfl, rfl, rfl⟩ := h
      have hp : ¬a.free_at ≤ time := by omega
      rw [List.takeWhile_cons, List.dropWhile_cons, if_neg (by simp [hp]),
        if_neg (by simp [hp])]
      refine ⟨rfl, fun _ => ⟨rfl, rfl⟩, ?_⟩
      intro g hg
      exact absurd hg (by simp)
    · rw [if_neg h1] at h
      have hp : a.free_at ≤ time := by omega
      rw [List.takeWhile_cons, List.dropWhile_cons, if_pos (by simp [hp]),
        if_pos (by simp [hp])]
      by_cases h2 : a.offset = head
      · rw [if_pos h2] at h
        cases rest with
        | nil =>
          simp only [List.isEmpty_nil, if_true] at h
          simp only [Option.some.injEq, Prod.mk.injEq] at h
          obtain ⟨rfl, rfl, rfl⟩ := h
          refine ⟨rfl, ?_, ?_⟩
          · intro hcon
            exact absurd hcon (by simp)
          · intro g hg
            simp only [List.takeWhile_nil, List.getLast?_singleton,
              Option.some.injEq] at hg
            subst hg
            refine ⟨fun _ => ⟨rfl, rfl, rfl⟩, fun hc => absurd h2 hc⟩
        | cons b rest2 => simp at h
      · rw [if_neg h2] at h
        obtain ⟨ihdrop, ihemp, ihlast⟩ := tickAux_char size time rest head a.offset h
        refine ⟨ihdrop, ?_, ?_⟩
        · intro hcon
          exact absurd hcon (by simp)
        · intro g hg
          cases htw : rest.takeWhile (fun a => decide (a.free_at ≤ time)) with
          | nil =>
            rw [htw, List.getLast?_singleton, Option.some.injEq] at hg
            subst hg
            refine ⟨fun hc => absurd hc h2, fun _ => ?_⟩
            exact ihemp htw
          | cons c tl =>
            rw [htw, List.getLast?_cons_cons] at hg
            exact ihlast g (htw ▸ hg)

theorem sorted_dropWhile_filter (time : Nat) :
    ∀ (l : List TlAlloc),
      l.Pairwise (fun a b => a.free_at ≤ b.free_at) →
      l.dropWhile (fun a => decide (a.free_at ≤ time)) =
        l.filter (fun a => decide (time < a.free_at))
  | [], _ => rfl
  | a :: l, hs => by
    obtain ⟨hab, hl⟩ := List.pairwise_cons.mp hs
    rw [List.dropWhile_cons, List.filter_cons]
    by_cases hp : a.free_at ≤ time
    · rw [if_pos (by simp [hp]), if_neg (by simp; omega)]
      exact sorted_dropWhile_filter time l hl
    · rw [if_neg (by simp [hp]), if_pos (by simp; omega)]
      have hfe : l.filter (fun a => decide (time < a.free_at)) = l := by
        apply List.filter_eq_self.mpr
        intro b hb
        have := hab b hb
        simp only [decide_eq_true_eq]
        omega
      rw [hfe]

theorem sorted_drained_iff (time : Nat) :
    ∀ (l : List TlAlloc),
      l.Pairwise (fun a b => a.free_at ≤ b.free_at) →
      ((l.dropWhile (fun a => decide (a.free_at ≤ time))).length ≠ l.length ↔
        ∃ a ∈ l, a.free_at ≤ time)
  | [], _ => by simp
  | a :: l, hs => by
    obtain ⟨hab, _⟩ := List.pairwise_cons.mp hs
    rw [List.dropWhile_cons]
    by_cases hp : a.free_at ≤ time
    · rw [if_pos (by simp [hp])]
      constructor
      · intro _
        exact ⟨a, by simp, hp⟩
      · intro _
        have hle : (l.dropWhile (fun a : TlAlloc => decide (a.free_at ≤ time))).length
            ≤ l.length := (List.dropWhile_sublist _).length_le
        simp only [List.length_cons]
        omega
    · rw [if_neg (by simp [hp])]
      constructor
      · intro hcon
        exact absurd rfl hcon
      · intro ⟨b, hb, hble⟩
        rcases List.mem_cons.mp hb with rfl | hbl
        · exact absurd hble hp
        · have := hab b hbl
          omega

theorem botG_append_general :
    ∀ (l1 l2 : List GAlloc) (d : Nat), botG (l1 ++ l2) d = botG l2 (botG l1 d)
  | [], l2, d => rfl
  | a :: l1, l2, d => by
    rw [List.cons_append]
    show botG (l1 ++ l2) a.offset = botG l2 (botG l1 a.offset)
    exact botG_append_general l1 l2 a.offset

/-- In an invariant-satisfying state, `head` is the newest ghost offset. -/
theorem inv_head_botG {r : TimelineRing} {gh : List GAlloc} (hinv : RingInv r gh) :
    r.head = botG gh r.tail := by
  obtain ⟨_, _, _, _, _, lo, hi, hsplit, hclo, hchi, hhe, hhne⟩ := hinv
  subst hsplit
  rw [botG_append_general]
  cases hi with
  | nil => exact hhe rfl
  | cons a hi2 =>
    have hb := (hhne (by simp)).1
    rw [hb]
    exact botG_ne_nil (a :: hi2) 0 (botG lo r.tail) (by simp)

theorem botG_eq_getLast :
    ∀ (l : List GAlloc) (d : Nat) (g : GAlloc), l.getLast? = some g → botG l d = g.offset
  | [], _, _, h => by simp at h
  | [a], _, g, h => by
    simp only [List.getLast?_singleton, Option.some.injEq] at h
    subst h
    rfl
  | a :: b :: l, d, g, h => by
    rw [List.getLast?_cons_cons] at h
    show botG (b :: l) a.offset = g.offset
    exact botG_eq_getLast (b :: l) a.offset g h

theorem getLast?_map_proj :
    ∀ (l : List GAlloc), (l.map GAlloc.proj).getLast? = l.getLast?.map GAlloc.proj
  | [] => rfl
  | [_] => rfl
  | a :: b :: l => by
    rw [List.map_cons, List.map_cons, List.getLast?_cons_cons,
      List.getLast?_cons_cons, ← List.map_cons]
    exact getLast?_map_proj (b :: l)

/-- C5: on a reachable ring state (one satisfying the layout invariant)
whose pending allocations carry non-decreasing `free_at` values, a
non-panicking `tick(t)` removes exactly the pending allocations with
`free_at ≤ t` and reclaims their space — `tail` moves to the last
reclaimed offset, or the ring resets to the empty state when the
collection drains — no allocation with `free_at > t` is removed, and the
returned flag is `true` exactly when something was reclaimed. -/
theorem timelineRing_tick_spec (r : TimelineRing) (gh : List GAlloc) (time : Nat)
    (b : Bool) (r' : TimelineRing)
    (hinv : RingInv r gh)
    (hsorted : r.allocations.Pairwise (fun a b => a.free_at ≤ b.free_at))
    (h : r.tick time = some (b, r')) :
    r'.allocations = r.allocations.filter (fun a => decide (time < a.free_at)) ∧
    (∀ a ∈ r.allocations, a.free_at ≤ time → a ∉ r'.allocations) ∧
    (∀ a ∈ r.allocations, time < a.free_at → a ∈ r'.allocations) ∧
    (b = true ↔ ∃ a ∈ r.allocations, a.free_at ≤ time) ∧
    (r.allocations.takeWhile (fun a => decide (a.free_at ≤ time)) = [] →
       r'.head = r.head ∧ r'.tail = r.tail) ∧
    (∀ g, (r.allocations.takeWhile
            (fun a => decide (a.free_at ≤ time))).getLast? = some g →
       (r'.allocations ≠ [] → r'.head = r.head ∧ r'.tail = g.offset) ∧
       (r'.allocations = [] → r'.head = r.size - 1 ∧ r'.tail = r.size - 1)) := by
  simp only [TimelineRing.tick] at h
  cases hg : tickAux r.size time r.head r.tail r.allocations with
  | none => rw [hg] at h; exact absurd h (by simp)
  | some x =>
    obtain ⟨h2, t2, rem⟩ := x
    rw [hg] at h
    simp only [Option.map_some', Option.some.injEq, Prod.mk.injEq] at h
    obtain ⟨hb, hr'⟩ := h
    obtain ⟨hdrop, hemp, hlast⟩ :=
      tickAux_char r.size time r.allocations r.head r.tail hg
    subst hr'
    have hfilter : rem = r.allocations.filter (fun a => decide (time < a.free_at)) := by
      rw [hdrop]
      exact sorted_dropWhile_filter time r.allocations hsorted
    refine ⟨hfilter, ?_, ?_, ?_, hemp, ?_⟩
    · intro a ha hale hmem
      have hmem2 : a ∈ rem := hmem
      rw [hfilter] at hmem2
      have := (List.mem_filter.mp hmem2).2
      simp only [decide_eq_true_eq] at this
      omega
    · intro a ha halt
      show a ∈ rem
      rw [hfilter]
      exact List.mem_filter.mpr ⟨ha, by simp [halt]⟩
    · rw [← hb]
      rw [bne_iff_ne]
      rw [hdrop]
      exact sorted_drained_iff time r.allocations hsorted
    · intro g hgl
      by_cases hoh : g.offset = r.head
      · obtain ⟨hh2, ht2, hrem⟩ := (hlast g hgl).1 hoh
        constructor
        · intro hne
          exact absurd hrem hne
        · intro _
          exact ⟨hh2, ht2⟩
      · obtain ⟨hh2, ht2⟩ := (hlast g hgl).2 hoh
        constructor
        · intro _
          exact ⟨hh2, ht2⟩
        · intro hnil
          exfalso
          have htake : r.allocations.takeWhile
              (fun a => decide (a.free_at ≤ time)) = r.allocations := by
            have happ := List.takeWhile_append_dropWhile
              (p := fun a : TlAlloc => decide (a.free_at ≤ time))
              (l := r.allocations)
            have hnil2 : rem = [] := hnil
            rw [← hdrop, hnil2, List.append_nil] at happ
            exact happ
          rw [htake] at hgl
          have hhead := inv_head_botG hinv
          have hproj := hinv.1
          rw [hproj, getLast?_map_proj] at hgl
          cases hgg : gh.getLast? with
          | none => rw [hgg] at hgl; simp at hgl
          | some gg =>
            rw [hgg] at hgl
            simp only [Option.map_some', Option.some.injEq] at hgl
            have hbg : botG gh r.tail = gg.offset := botG_eq_getLast gh r.tail gg hgg
            apply hoh
            rw [← hgl]
            show gg.offset = r.head
            omega

/-- C5 witness: the tick specification applied to a concrete reachable
two-allocation state at time 0. -/
theorem timelineRing_tick_spec_witness :
    RingInv { size := 5, allocations := [⟨0, 2⟩, ⟨1, 1⟩], head := 1, tail := 0 }
      [⟨2, 3, 0⟩, ⟨1, 1, 1⟩] ∧
    List.Pairwise (fun a b => a.free_at ≤ b.free_at)
      ([⟨0, 2⟩, ⟨1, 1⟩] : List TlAlloc) ∧
    TimelineRing.tick
        { size := 5, allocations := [⟨0, 2⟩, ⟨1, 1⟩], head := 1, tail := 0 } 0 =
      some (true, { size := 5, allocations := [⟨1, 1⟩], head := 1, tail := 2 }) ∧
    (({ size := 5, allocations := [⟨1, 1⟩], head := 1, tail := 2 }
        : TimelineRing).allocations =
      ({ size := 5, allocations := [⟨0, 2⟩, ⟨1, 1⟩], head := 1, tail := 0 }
        : TimelineRing).allocations.filter (fun a => decide (0 < a.free_at)) ∧
     (∀ a ∈ ({ size := 5, allocations := [⟨0, 2⟩, ⟨1, 1⟩], head := 1, tail := 0 }
        : TimelineRing).allocations, a.free_at ≤ 0 →
        a ∉ ({ size := 5, allocations := [⟨1, 1⟩], head := 1, tail := 2 }
          : TimelineRing).allocations) ∧
     (∀ a ∈ ({ size := 5, allocations := [⟨0, 2⟩, ⟨1, 1⟩], head := 1, tail := 0 }
        : TimelineRing).allocations, 0 < a.free_at →
        a ∈ ({ size := 5, allocations := [⟨1, 1⟩], head := 1, tail := 2 }
          : TimelineRing).allocations) ∧
     (true = true ↔
       ∃ a ∈ ({ size := 5, allocations := [⟨0, 2⟩, ⟨1, 1⟩], head := 1, tail := 0 }
         : TimelineRing).allocations, a.free_at ≤ 0) ∧
     (({ size := 5, allocations := [⟨0, 2⟩, ⟨1, 1⟩], head := 1, tail := 0 }
        : TimelineRing).allocations.takeWhile (fun a => decide (a.free_at ≤ 0)) = [] →
        ({ size := 5, allocations := [⟨1, 1⟩], head := 1, tail := 2 }
          : TimelineRing).head =
          ({ size := 5, allocations := [⟨0, 2⟩, ⟨1, 1⟩], head := 1, tail := 0 }
            : TimelineRing).head ∧
        ({ size := 5, allocations := [⟨1, 1⟩], head := 1, tail := 2 }
          : TimelineRing).tail =
          ({ size := 5, allocations := [⟨0, 2⟩, ⟨1, 1⟩], head := 1, tail := 0 }
            : TimelineRing).tail) ∧
     (∀ g, (({ size := 5, allocations := [⟨0, 2⟩, ⟨1, 1⟩], head := 1, tail := 0 }
         : TimelineRing).allocations.takeWhile
           (fun a => decide (a.free_at ≤ 0))).getLast? = some g →
        (({ size := 5, allocations := [⟨1, 1⟩], head := 1, tail := 2 }
           : TimelineRing).allocations ≠ [] →
         ({ size := 5, allocations := [⟨1, 1⟩], head := 1, tail := 2 }
           : TimelineRing).head =
           ({ size := 5, allocations := [⟨0, 2⟩, ⟨1, 1⟩], head := 1, tail := 0 }
             : TimelineRing).head ∧
         ({ size := 5, allocations := [⟨1, 1⟩], head := 1, tail := 2 }
           : TimelineRing).tail = g.offset) ∧
        (({ size := 5, allocations := [⟨1, 1⟩], head := 1, tail := 2 }
           : TimelineRing).allocations = [] →
         ({ size := 5, allocations := [⟨1, 1⟩], head := 1, tail := 2 }
           : TimelineRing).head =
           ({ size := 5, allocations := [⟨0, 2⟩, ⟨1, 1⟩], head := 1, tail := 0 }
             : TimelineRing).size - 1 ∧
         ({ size := 5, allocations := [⟨1, 1⟩], head := 1, tail := 2 }
           : TimelineRing).tail =
           ({ size := 5, allocations := [⟨0, 2⟩, ⟨1, 1⟩], head := 1, tail := 0 }
             : TimelineRing).size - 1))) := by
  have hinv : RingInv
      { size := 5, allocations := [⟨0, 2⟩, ⟨1, 1⟩], head := 1, tail := 0 }
      [⟨2, 3, 0⟩, ⟨1, 1, 1⟩] := by
    refine ⟨rfl, by decide, by decide, by decide, by decide,
      [], [⟨2, 3, 0⟩, ⟨1, 1, 1⟩], rfl, trivial, ⟨by decide, by decide, trivial⟩,
      ?_, ?_⟩
    · intro hc
      exact absurd hc (by decide)
    · intro _
      exact ⟨rfl, by decide⟩
  exact ⟨hinv, by decide, by decide,
    timelineRing_tick_spec
      { size := 5, allocations := [⟨0, 2⟩, ⟨1, 1⟩], head := 1, tail := 0 }
      [⟨2, 3, 0⟩, ⟨1, 1, 1⟩] 0 true
      { size := 5, allocations := [⟨1, 1⟩], head := 1, tail := 2 }
      hinv (by decide) (by decide)⟩

/-- C10: on any registry state whose cursor is in bounds (true of every
state that survives construction and the registry's own operations),
`inter` appends the handle to the bucket at the cursor and changes nothing
else: the cursor is unchanged, every other bucket is unchanged, the
current bucket keeps its previous contents plus the new handle, and no
destruction is performed (no handle is removed from any bucket). -/
theorem graveyard_inter_spec (g : Graveyard) (h : Nat)
    (hc : g.cursor < g.frames.length) :
    ∃ g', g.inter h = some g' ∧ g'.cursor = g.cursor ∧
      g'.frames.length = g.frames.length ∧
      (∀ i, i ≠ g.cursor → g'.frames[i]? = g.frames[i]?) ∧
      (∃ fr, g.frames[g.cursor]? = some fr ∧
        g'.frames[g.cursor]? = some { fr with buffers := fr.buffers ++ [h] }) := by
  unfold Graveyard.inter
  cases hfr : g.frames[g.cursor]? with
  | none =>
    rw [List.getElem?_eq_none_iff] at hfr
    omega
  | some fr =>
    refine ⟨_, rfl, rfl, by simp, ?_, fr, rfl, ?_⟩
    · intro i hi
      show (g.frames.set g.cursor (fr.push_buffers [h]))[i]? = g.frames[i]?
      rw [List.getElem?_set_ne (by omega)]
    · show (g.frames.set g.cursor (fr.push_buffers [h]))[g.cursor]? = _
      rw [List.getElem?_set_self' ]
      rw [hfr]
      rfl

/-- C10 witness: the inter specification applied to a fresh depth-2
registry and handle 5. -/
theorem graveyard_inter_spec_witness :
    (Graveyard.new 2).cursor < (Graveyard.new 2).frames.length ∧
    (∃ g', (Graveyard.new 2).inter 5 = some g' ∧
      g'.cursor = (Graveyard.new 2).cursor ∧
      g'.frames.length = (Graveyard.new 2).frames.length ∧
      (∀ i, i ≠ (Graveyard.new 2).cursor →
        g'.frames[i]? = (Graveyard.new 2).frames[i]?) ∧
      (∃ fr, (Graveyard.new 2).frames[(Graveyard.new 2).cursor]? = some fr ∧
        g'.frames[(Graveyard.new 2).cursor]? =
          some { fr with buffers := fr.buffers ++ [5] })) :=
  ⟨by decide, graveyard_inter_spec (Graveyard.new 2) 5 (by decide)⟩

/-! ## ParallelQueue (parallel_queue.rs)

`Message` carries either a command buffer to execute or a bare sequence
number being abandoned; `Ord` is by `time`, reversed, making Rust's
`BinaryHeap` a min-heap on `time`.  The heap is modelled as a list kept
sorted by ascending `time` (`heapPush` is ordered insertion); for the
distinct sequence numbers the queue produces, this has the same pop
behaviour as the heap.  Command buffers and semaphore values are `Nat`. -/

inductive Msg where
  | execute (cmd : Nat) (time : Nat)
  | reset (time : Nat)
deriving DecidableEq, Repr

def Msg.time : Msg → Nat
  | .execute _ t => t
  | .reset t => t

def Msg.cmd? : Msg → Option Nat
  | .execute c _ => some c
  | .reset _ => none

def MsgSorted (l : List Msg) : Prop :=
  l.Pairwise (fun a b => a.time ≤ b.time)

def heapPush (l : List Msg) (m : Msg) : List Msg :=
  match l with
  | [] => [m]
  | x :: rest => if m.time < x.time then m :: x :: rest else x :: heapPush rest m

theorem heapPush_perm : ∀ (l : List Msg) (m : Msg),
    List.Perm (heapPush l m) (m :: l)
  | [], _ => List.Perm.refl _
  | x :: rest, m => by
    unfold heapPush
    by_cases hlt : m.time < x.time
    · rw [if_pos hlt]
    · rw [if_neg hlt]
      exact ((heapPush_perm rest m).cons x).trans (List.Perm.swap m x rest)

theorem heapPush_sorted : ∀ (l : List Msg) (m : Msg),
    MsgSorted l → MsgSorted (heapPush l m)
  | [], m, _ => List.pairwise_singleton _ _
  | x :: rest, m, hs => by
    obtain ⟨hx, hrest⟩ := List.pairwise_cons.mp hs
    unfold heapPush
    by_cases hlt : m.time < x.time
    · rw [if_pos hlt]
      refine List.Pairwise.cons ?_ hs
      intro b hb
      rcases List.mem_cons.mp hb with rfl | hb2
      · omega
      · have := hx b hb2
        omega
    · rw [if_neg hlt]
      refine List.Pairwise.cons ?_ (heapPush_sorted rest m hrest)
      intro b hb
      have hb2 := (heapPush_perm rest m).mem_iff.mp hb
      rcases List.mem_cons.mp hb2 with rfl | hb3
      · omega
      · exact hx b hb3

/-- First phase of `drive`: move every channel message into the pending
heap. -/
def mergedPending (pending channel : List Msg) : List Msg :=
  channel.foldl heapPush pending

theorem mergedPending_perm :
    ∀ (channel pending : List Msg),
      List.Perm (mergedPending pending channel) (pending ++ channel)
  | [], pending => by simp [mergedPending]
  | c :: ch, pending => by
    show List.Perm (mergedPending (heapPush pending c) ch) _
    refine (mergedPending_perm ch (heapPush pending c)).trans ?_
    refine ((heapPush_perm pending c).append_right ch).trans ?_
    exact (List.perm_middle).symm

theorem mergedPending_sorted :
    ∀ (channel pending : List Msg), MsgSorted pending →
      MsgSorted (mergedPending pending channel)
  | [], _, hs => hs
  | c :: ch, pending, hs =>
    mergedPending_sorted ch (heapPush pending c) (heapPush_sorted pending c hs)

/-- Second phase of `drive`: pop the maximal contiguous run of sequence
numbers starting at `first_unsubmitted`; an `execute` contributes its
command buffer, a `reset` only advances the counter. -/
def popRun : Nat → List Msg → List Nat × Nat × List Msg
  | fu, [] => ([], fu, [])
  | fu, m :: rest =>
    if m.time = fu then
      let r := popRun (fu + 1) rest
      ((match m with
        | .execute c _ => c :: r.1
        | .reset _ => r.1), r.2.1, r.2.2)
    else ([], fu, m :: rest)

structure ParallelQueue where
  first_unsubmitted : Nat
  pending : List Msg
deriving DecidableEq, Repr

/-- Embeds `ParallelQueue::drive`: drain the channel into the heap, pop
the contiguous run, and (only when at least one command buffer was
collected) issue one submission signalling `first_unsubmitted - 1`. -/
def ParallelQueue.drive (q : ParallelQueue) (channel : List Msg) :
    ParallelQueue × Option (List Nat × Nat) :=
  let merged := mergedPending q.pending channel
  let r := popRun q.first_unsubmitted merged
  (⟨r.2.1, r.2.2⟩, if r.1.isEmpty then none else some (r.1, r.2.1 - 1))

theorem popRun_spec :
    ∀ (l : List Msg) (fu : Nat) {cmds : List Nat} {fu' : Nat} {rem : List Msg},
      popRun fu l = (cmds, fu', rem) →
      MsgSorted l →
      l.Pairwise (fun a b => a.time ≠ b.time) →
      (∀ m ∈ l, fu ≤ m.time) →
      ∃ run, l = run ++ rem ∧
        run.map Msg.time = List.range' fu (fu' - fu) ∧
        fu ≤ fu' ∧ cmds = run.filterMap Msg.cmd? ∧
        ∀ m ∈ rem, fu' < m.time
  | [], fu, cmds, fu', rem, h, _, _, _ => by
    simp only [popRun, Prod.mk.injEq] at h
    obtain ⟨rfl, rfl, rfl⟩ := h
    exact ⟨[], rfl, by simp, le_refl _, rfl, fun m hm => by cases hm⟩
  | m :: rest, fu, cmds, fu', rem, h, hs, hd, hge => by
    obtain ⟨hsm, hs2⟩ := List.pairwise_cons.mp hs
    obtain ⟨hdm, hd2⟩ := List.pairwise_cons.mp hd
    simp only [popRun] at h
    by_cases hm : m.time = fu
    · rw [if_pos hm] at h
      rcases hpr : popRun (fu + 1) rest with ⟨cmds2, fu2, rem2⟩
      rw [hpr] at h
      simp only [Prod.mk.injEq] at h
      obtain ⟨hcmds, hfu', hrem⟩ := h
      subst hfu'
      subst hrem
      have hge2 : ∀ x ∈ rest, fu + 1 ≤ x.time := by
        intro x hx
        have h1 := hge x (List.mem_cons_of_mem m hx)
        have h2 := hdm x hx
        omega
      obtain ⟨run2, hsplit2, hmap2, hle2, hcmds2, hrem2⟩ :=
        popRun_spec rest (fu + 1) hpr hs2 hd2 hge2
      refine ⟨m :: run2, ?_, ?_, by omega, ?_, ?_⟩
      · rw [List.cons_append, ← hsplit2]
      · rw [List.map_cons, hmap2, hm]
        have hk : fu2 - fu = (fu2 - (fu + 1)) + 1 := by omega
        rw [hk, List.range'_succ]
      · cases m with
        | execute c t =>
          rw [← hcmds, List.filterMap_cons]
          simp only [Msg.cmd?]
          rw [hcmds2]
        | reset t =>
          rw [← hcmds, List.filterMap_cons]
          simp only [Msg.cmd?]
          rw [hcmds2]
      · exact hrem2
    · rw [if_neg hm] at h
      simp only [Prod.mk.injEq] at h
      obtain ⟨rfl, rfl, rfl⟩ := h
      refine ⟨[], rfl, by simp, le_refl _, rfl, ?_⟩
      intro x hx
      rcases List.mem_cons.mp hx with rfl | hx2
      · have := hge x (by simp)
        omega
      · have h1 := hsm x hx2
        have h2 := hge m (by simp)
        omega

/-- C3: one `drive` call on a queue state whose message times are the
distinct not-yet-submitted sequence numbers first moves every channel
message into the pending heap and then removes exactly the maximal
contiguous run of sequence numbers starting at `first_unsubmitted`
(an `execute` contributes its command buffer, a `reset` contributes none
but still advances the counter); when the collected batch is non-empty it
issues exactly one submission for it, signalled at the updated
`first_unsubmitted - 1`, and a missing sequence number leaves every
higher-numbered message pending. -/
theorem parallelQueue_drive_spec (q : ParallelQueue) (channel : List Msg)
    (q' : ParallelQueue) (sub : Option (List Nat × Nat))
    (hsorted : MsgSorted q.pending)
    (hdist : (q.pending ++ channel).Pairwise (fun a b => a.time ≠ b.time))
    (hge : ∀ m ∈ q.pending ++ channel, q.first_unsubmitted ≤ m.time)
    (h : q.drive channel = (q', sub)) :
    q.first_unsubmitted ≤ q'.first_unsubmitted ∧
    (∀ m, m ∈ q'.pending ↔
      m ∈ q.pending ++ channel ∧ q'.first_unsubmitted ≤ m.time) ∧
    (∀ i, q.first_unsubmitted ≤ i → i < q'.first_unsubmitted →
      ∃ m ∈ q.pending ++ channel, m.time = i) ∧
    (¬ ∃ m ∈ q.pending ++ channel, m.time = q'.first_unsubmitted) ∧
    (∃ run : List Msg,
      run.Pairwise (fun a b => a.time < b.time) ∧
      (∀ m, m ∈ run ↔
        m ∈ q.pending ++ channel ∧ m.time < q'.first_unsubmitted) ∧
      sub = if (run.filterMap Msg.cmd?).isEmpty then none
            else some (run.filterMap Msg.cmd?, q'.first_unsubmitted - 1)) := by
  have hperm := mergedPending_perm channel q.pending
  have hms := mergedPending_sorted channel q.pending hsorted
  have hmd : (mergedPending q.pending channel).Pairwise
      (fun a b => a.time ≠ b.time) := by
    refine (List.Perm.pairwise_iff ?_ hperm).mpr hdist
    intro a b hab
    exact fun he => hab he.symm
  have hmge : ∀ m ∈ mergedPending q.pending channel,
      q.first_unsubmitted ≤ m.time := by
    intro m hm
    exact hge m (hperm.mem_iff.mp hm)
  simp only [ParallelQueue.drive] at h
  rcases hpr : popRun q.first_unsubmitted (mergedPending q.pending channel)
    with ⟨cmds, fu', rem⟩
  rw [hpr] at h
  simp only [Prod.mk.injEq] at h
  obtain ⟨hq', hsub⟩ := h
  obtain ⟨run, hsplit, hmap, hle, hcmds, hrem⟩ := popRun_spec _ _ hpr hms hmd hmge
  subst hq'
  have hrunlt : ∀ m ∈ run, m.time < fu' := by
    intro m hm
    have : m.time ∈ run.map Msg.time := List.mem_map_of_mem _ hm
    rw [hmap] at this
    have := List.mem_range'_1.mp this
    omega
  have hmem_all : ∀ m, m ∈ mergedPending q.pending channel ↔
      m ∈ q.pending ++ channel := fun m => hperm.mem_iff
  simp only [show ({ first_unsubmitted := fu', pending := rem }
      : ParallelQueue).first_unsubmitted = fu' from rfl,
    show ({ first_unsubmitted := fu', pending := rem }
      : ParallelQueue).pending = rem from rfl]
  refine ⟨hle, ?_, ?_, ?_, run, ?_, ?_, ?_⟩
  · intro m
    constructor
    · intro hm
      have hmm : m ∈ mergedPending q.pending channel := by
        rw [hsplit]
        exact List.mem_append.mpr (Or.inr hm)
      exact ⟨(hmem_all m).mp hmm, le_of_lt (hrem m hm)⟩
    · intro ⟨hma, hfle⟩
      have hmm : m ∈ mergedPending q.pending channel := (hmem_all m).mpr hma
      rw [hsplit] at hmm
      rcases List.mem_append.mp hmm with hrun | hr
      · have := hrunlt m hrun
        omega
      · exact hr
  · intro i hi1 hi2
    have : i ∈ List.range' q.first_unsubmitted (fu' - q.first_unsubmitted) := by
      rw [List.mem_range'_1]
      omega
    rw [← hmap] at this
    obtain ⟨m, hm, hmt⟩ := List.mem_map.mp this
    refine ⟨m, ?_, hmt⟩
    apply (hmem_all m).mp
    rw [hsplit]
    exact List.mem_append.mpr (Or.inl hm)
  · intro ⟨m, hma, htm⟩
    have hmm : m ∈ mergedPending q.pending channel := (hmem_all m).mpr hma
    rw [hsplit] at hmm
    rcases List.mem_append.mp hmm with hrun | hr
    · have := hrunlt m hrun
      omega
    · have := hrem m hr
      omega
  · have : List.Pairwise (· < ·) (run.map Msg.time) := by
      rw [hmap]
      exact List.pairwise_lt_range' _ _
    exact (List.pairwise_map.mp this)
  · intro m
    constructor
    · intro hm
      refine ⟨?_, hrunlt m hm⟩
      apply (hmem_all m).mp
      rw [hsplit]
      exact List.mem_append.mpr (Or.inl hm)
    · intro ⟨hma, hlt⟩
      have hmm : m ∈ mergedPending q.pending channel := (hmem_all m).mpr hma
      rw [hsplit] at hmm
      rcases List.mem_append.mp hmm with hrun | hr
      · exact hrun
      · have := hrem m hr
        omega
  · rw [← hsub, hcmds]

/-- C3 witness: the drive specification applied to an empty heap and a
channel carrying sequence numbers 1 (execute), 2 (reset) and 4 (execute);
the run {1, 2} is submitted signalling 2, and number 4 stays pending. -/
theorem parallelQueue_drive_spec_witness :
    MsgSorted ({ first_unsubmitted := 1, pending := [] }
      : ParallelQueue).pending ∧
    ((({ first_unsubmitted := 1, pending := [] } : ParallelQueue).pending ++
        [Msg.execute 10 1, Msg.reset 2, Msg.execute 30 4]).Pairwise
      (fun a b => a.time ≠ b.time)) ∧
    (∀ m ∈ ({ first_unsubmitted := 1, pending := [] }
        : ParallelQueue).pending ++
        [Msg.execute 10 1, Msg.reset 2, Msg.execute 30 4],
      ({ first_unsubmitted := 1, pending := [] }
        : ParallelQueue).first_unsubmitted ≤ m.time) ∧
    (ParallelQueue.drive { first_unsubmitted := 1, pending := [] }
        [Msg.execute 10 1, Msg.reset 2, Msg.execute 30 4] =
      ({ first_unsubmitted := 3, pending := [Msg.execute 30 4] },
       some ([10], 2))) ∧
    (({ first_unsubmitted := 1, pending := [] }
        : ParallelQueue).first_unsubmitted ≤
      ({ first_unsubmitted := 3, pending := [Msg.execute 30 4] }
        : ParallelQueue).first_unsubmitted ∧
     (∀ m, m ∈ ({ first_unsubmitted := 3, pending := [Msg.execute 30 4] }
          : ParallelQueue).pending ↔
        m ∈ ({ first_unsubmitted := 1, pending := [] }
          : ParallelQueue).pending ++
          [Msg.execute 10 1, Msg.reset 2, Msg.execute 30 4] ∧
        ({ first_unsubmitted := 3, pending := [Msg.execute 30 4] }
          : ParallelQueue).first_unsubmitted ≤ m.time) ∧
     (∀ i, ({ first_unsubmitted := 1, pending := [] }
          : ParallelQueue).first_unsubmitted ≤ i →
        i < ({ first_unsubmitted := 3, pending := [Msg.execute 30 4] }
          : ParallelQueue).first_unsubmitted →
        ∃ m ∈ ({ first_unsubmitted := 1, pending := [] }
          : ParallelQueue).pending ++
          [Msg.execute 10 1, Msg.reset 2, Msg.execute 30 4], m.time = i) ∧
     (¬ ∃ m ∈ ({ first_unsubmitted := 1, pending := [] }
          : ParallelQueue).pending ++
          [Msg.execute 10 1, Msg.reset 2, Msg.execute 30 4],
        m.time = ({ first_unsubmitted := 3, pending := [Msg.execute 30 4] }
          : ParallelQueue).first_unsubmitted) ∧
     (∃ run : List Msg,
       run.Pairwise (fun a b => a.time < b.time) ∧
       (∀ m, m ∈ run ↔
         m ∈ ({ first_unsubmitted := 1, pending := [] }
           : ParallelQueue).pending ++
           [Msg.execute 10 1, Msg.reset 2, Msg.execute 30 4] ∧
         m.time < ({ first_unsubmitted := 3, pending := [Msg.execute 30 4] }
           : ParallelQueue).first_unsubmitted) ∧
       some ([10], 2) =
         if (run.filterMap Msg.cmd?).isEmpty then none
         else some (run.filterMap Msg.cmd?,
           ({ first_unsubmitted := 3, pending := [Msg.execute 30 4] }
             : ParallelQueue).first_unsubmitted - 1))) :=
  ⟨List.Pairwise.nil, by decide, by decide, by decide,
   parallelQueue_drive_spec { first_unsubmitted := 1, pending := [] }
     [Msg.execute 10 1, Msg.reset 2, Msg.execute 30 4]
     { first_unsubmitted := 3, pending := [Msg.execute 30 4] }
     (some ([10], 2)) List.Pairwise.nil (by decide) (by decide) (by decide)⟩

/-! ## Handle-side sequence numbering (for C7)

`Handle::begin` takes its number from the shared atomic
`first_unallocated` counter (initialised to 1 in `ParallelQueue::new`)
with `fetch_add(1)`; `Handle::end` sends `Execute(work)` on the shared
channel and `Handle::reset` sends `Reset(work.time)`.  Handle-local state
(command-buffer pools) affects neither numbering nor the channel, and the
counter and channel are the only cross-thread state, so any interleaving
of calls across any set of handles is a sequence of these three events.
The guard on `finish`/`reset` is the source's documented safety contract:
the work item came from a prior `begin` and was not finished before. -/

inductive POp where
  | begin
  | finish (n cmd : Nat)
  | reset (n : Nat)
deriving DecidableEq, Repr

structure PQState where
  first_unallocated : Nat
  begun : List Nat
  ended : List Nat
  resets : List Nat
  channel : List Msg
deriving DecidableEq, Repr

def stepP (s : PQState) : POp → Option PQState
  | .begin =>
    some { s with first_unallocated := s.first_unallocated + 1,
                  begun := s.begun ++ [s.first_unallocated] }
  | .finish n cmd =>
    if n ∈ s.begun ∧ ¬ n ∈ s.channel.map Msg.time then
      some { s with ended := s.ended ++ [n],
                    channel := s.channel ++ [Msg.execute cmd n] }
    else none
  | .reset n =>
    if n ∈ s.begun ∧ ¬ n ∈ s.channel.map Msg.time then
      some { s with resets := s.resets ++ [n],
                    channel := s.channel ++ [Msg.reset n] }
    else none

def runP (ops : List POp) : Option PQState :=
  ops.foldlM stepP
    { first_unallocated := 1, begun := [], ended := [], resets := [], channel := [] }

/-- Number of `Execute` messages carrying sequence number `n`. -/
def countE (ch : List Msg) (n : Nat) : Nat :=
  (ch.filter (fun m => match m with
    | .execute _ t => decide (t = n)
    | .reset _ => false)).length

/-- Number of `Reset` messages carrying sequence number `n`. -/
def countR (ch : List Msg) (n : Nat) : Nat :=
  (ch.filter (fun m => match m with
    | .execute _ _ => false
    | .reset t => decide (t = n))).length

theorem countE_append (ch1 ch2 : List Msg) (n : Nat) :
    countE (ch1 ++ ch2) n = countE ch1 n + countE ch2 n := by
  simp [countE, List.filter_append]

theorem countR_append (ch1 ch2 : List Msg) (n : Nat) :
    countR (ch1 ++ ch2) n = countR ch1 n + countR ch2 n := by
  simp [countR, List.filter_append]

theorem countE_execute (cmd t n : Nat) :
    countE [Msg.execute cmd t] n = if t = n then 1 else 0 := by
  by_cases h : t = n <;> simp [countE, h]

theorem countE_reset (t n : Nat) : countE [Msg.reset t] n = 0 := by
  simp [countE]

theorem countR_reset (t n : Nat) :
    countR [Msg.reset t] n = if t = n then 1 else 0 := by
  by_cases h : t = n <;> simp [countR, h]

theorem countR_execute (cmd t n : Nat) : countR [Msg.execute cmd t] n = 0 := by
  simp [countR]

theorem range'_concat_one : ∀ (s k : Nat),
    List.range' s (k + 1) = List.range' s k ++ [s + k]
  | s, 0 => by simp
  | s, k + 1 => by
    rw [List.range'_succ, range'_concat_one (s + 1) k, List.range'_succ]
    simp only [List.cons_append]
    have : s + 1 + k = s + (k + 1) := by omega
    rw [this]

def PInv (s : PQState) : Prop :=
  1 ≤ s.first_unallocated ∧
  s.begun = List.range' 1 (s.first_unallocated - 1) ∧
  (∀ n, countE s.channel n = if n ∈ s.ended then 1 else 0) ∧
  (∀ n, countR s.channel n = if n ∈ s.resets then 1 else 0) ∧
  (∀ n, n ∈ s.channel.map Msg.time ↔ n ∈ s.ended ∨ n ∈ s.resets) ∧
  (∀ n ∈ s.ended, n ∈ s.begun) ∧
  (∀ n ∈ s.resets, n ∈ s.begun) ∧
  (∀ n, ¬(n ∈ s.ended ∧ n ∈ s.resets))

theorem stepP_inv {s : PQState} {op : POp} {s' : PQState}
    (hs : PInv s) (h : stepP s op = some s') : PInv s' := by
  obtain ⟨h1, hbg, hce, hcr, hch, hse, hsr, hdisj⟩ := hs
  cases op with
  | begin =>
    simp only [stepP, Option.some.injEq] at h
    subst h
    refine ⟨?_, ?_, hce, hcr, hch, ?_, ?_, hdisj⟩
    · show 1 ≤ s.first_unallocated + 1
      omega
    · show s.begun ++ [s.first_unallocated] =
        List.range' 1 (s.first_unallocated + 1 - 1)
      rw [hbg]
      have hk : s.first_unallocated + 1 - 1 = (s.first_unallocated - 1) + 1 := by
        omega
      rw [hk, range'_concat_one]
      have : 1 + (s.first_unallocated - 1) = s.first_unallocated := by omega
      rw [this]
    · intro n hn
      exact List.mem_append.mpr (Or.inl (hse n hn))
    · intro n hn
      exact List.mem_append.mpr (Or.inl (hsr n hn))
  | finish n cmd =>
    simp only [stepP] at h
    split_ifs at h with hg
    obtain ⟨hgb, hgc⟩ := hg
    simp only [Option.some.injEq] at h
    subst h
    have hne : ¬ n ∈ s.ended := by
      intro hc
      exact hgc ((hch n).mpr (Or.inl hc))
    have hnr : ¬ n ∈ s.resets := by
      intro hc
      exact hgc ((hch n).mpr (Or.inr hc))
    refine ⟨h1, hbg, ?_, ?_, ?_, ?_, hsr, ?_⟩
    · intro k
      show countE (s.channel ++ [Msg.execute cmd n]) k = _
      rw [countE_append, hce k, countE_execute]
      by_cases hk : k ∈ s.ended
      · have hkn : ¬ n = k := fun he => hne (he ▸ hk)
        simp [hk, hkn, List.mem_append.mpr (Or.inl hk)]
      · by_cases hkn : n = k
        · subst hkn
          simp [hk, List.mem_append]
        · have : ¬ k ∈ s.ended ++ [n] := by
            intro hc
            rcases List.mem_append.mp hc with hc1 | hc2
            · exact hk hc1
            · simp only [List.mem_singleton] at hc2
              exact hkn hc2.symm
          simp [hk, hkn, this]
    · intro k
      show countR (s.channel ++ [Msg.execute cmd n]) k =
        if k ∈ s.resets then 1 else 0
      rw [countR_append, hcr k, countR_execute]
      omega
    · intro k
      show k ∈ (s.channel ++ [Msg.execute cmd n]).map Msg.time ↔
        k ∈ s.ended ++ [n] ∨ k ∈ s.resets
      rw [List.map_append]
      simp only [List.mem_append, List.map_cons, List.map_nil, Msg.time,
        List.mem_singleton]
      rw [hch k]
      constructor
      · rintro ((hk | hk) | hk)
        · exact Or.inl (Or.inl hk)
        · exact Or.inr hk
        · exact Or.inl (Or.inr hk)
      · rintro ((hk | hk) | hk)
        · exact Or.inl (Or.inl hk)
        · exact Or.inr hk
        · exact Or.inl (Or.inr hk)
    · intro k hk
      rcases List.mem_append.mp hk with hk1 | hk2
      · exact hse k hk1
      · simp only [List.mem_singleton] at hk2
        subst hk2
        exact hgb
    · intro k ⟨hk1, hk2⟩
      rcases List.mem_append.mp hk1 with hk3 | hk4
      · exact hdisj k ⟨hk3, hk2⟩
      · simp only [List.mem_singleton] at hk4
        subst hk4
        exact hnr hk2
  | reset n =>
    simp only [stepP] at h
    split_ifs at h with hg
    obtain ⟨hgb, hgc⟩ := hg
    simp only [Option.some.injEq] at h
    subst h
    have hne : ¬ n ∈ s.ended := by
      intro hc
      exact hgc ((hch n).mpr (Or.inl hc))
    have hnr : ¬ n ∈ s.resets := by
      intro hc
      exact hgc ((hch n).mpr (Or.inr hc))
    refine ⟨h1, hbg, ?_, ?_, ?_, hse, ?_, ?_⟩
    · intro k
      show countE (s.channel ++ [Msg.reset n]) k =
        if k ∈ s.ended then 1 else 0
      rw [countE_append, hce k, countE_reset]
      omega
    · intro k
      show countR (s.channel ++ [Msg.reset n]) k = _
      rw [countR_append, hcr k, countR_reset]
      by_cases hk : k ∈ s.resets
      · have hkn : ¬ n = k := fun he => hnr (he ▸ hk)
        simp [hk, hkn, List.mem_append.mpr (Or.inl hk)]
      · by_cases hkn : n = k
        · subst hkn
          simp [hk, List.mem_append]
        · have : ¬ k ∈ s.resets ++ [n] := by
            intro hc
            rcases List.mem_append.mp hc with hc1 | hc2
            · exact hk hc1
            · simp only [List.mem_singleton] at hc2
              exact hkn hc2.symm
          simp [hk, hkn, this]
    · intro k
      show k ∈ (s.channel ++ [Msg.reset n]).map Msg.time ↔
        k ∈ s.ended ∨ k ∈ s.resets ++ [n]
      rw [List.map_append]
      simp only [List.mem_append, List.map_cons, List.map_nil, Msg.time,
        List.mem_singleton]
      rw [hch k]
      constructor
      · rintro ((hk | hk) | hk)
        · exact Or.inl hk
        · exact Or.inr (Or.inl hk)
        · exact Or.inr (Or.inr hk)
      · rintro (hk | (hk | hk))
        · exact Or.inl (Or.inl hk)
        · exact Or.inl (Or.inr hk)
        · exact Or.inr hk
    · intro k hk
      rcases List.mem_append.mp hk with hk1 | hk2
      · exact hsr k hk1
      · simp only [List.mem_singleton] at hk2
        subst hk2
        exact hgb
    · intro k ⟨hk1, hk2⟩
      rcases List.mem_append.mp hk2 with hk3 | hk4
      · exact hdisj k ⟨hk1, hk3⟩
      · simp only [List.mem_singleton] at hk4
        subst hk4
        exact hne hk1

theorem runP_inv_aux :
    ∀ (ops : List POp) (s : PQState) {s' : PQState},
      PInv s → ops.foldlM stepP s = some s' → PInv s'
  | [], s, s', hs, h => by
    simp only [List.foldlM_nil, Option.pure_def, Option.some.injEq] at h
    subst h
    exact hs
  | op :: ops, s, s', hs, h => by
    rw [List.foldlM_cons] at h
    cases hstep : stepP s op with
    | none => rw [hstep] at h; exact absurd h (by simp)
    | some s1 =>
      rw [hstep] at h
      simp only [Option.bind_eq_bind, Option.some_bind] at h
      exact runP_inv_aux ops s1 (stepP_inv hs hstep) h

/-- C7: along every valid interleaving of `begin`/`end`/`reset` events
across any set of handles, the sequence numbers handed out by `begin` are
dense and increasing — the k-th `begin` overall receives number k,
starting at 1 — and every allocated number later finished via `end`
(resp. `reset`) reaches the consumer channel exactly once, carried by an
`Execute` (resp. `Reset`) message; an unfinished number has no message, so
`reset` never silently discards a number. -/
theorem parallelQueue_sequence_numbers (ops : List POp) (s : PQState)
    (h : runP ops = some s) :
    s.begun = List.range' 1 (s.first_unallocated - 1) ∧
    (∀ i, ∀ hi : i < s.begun.length, s.begun.get ⟨i, hi⟩ = i + 1) ∧
    s.begun.Pairwise (· < ·) ∧
    (∀ n ∈ s.ended,
      n ∈ s.begun ∧ countE s.channel n = 1 ∧ countR s.channel n = 0) ∧
    (∀ n ∈ s.resets,
      n ∈ s.begun ∧ countR s.channel n = 1 ∧ countE s.channel n = 0) ∧
    (∀ n, ¬ n ∈ s.ended → ¬ n ∈ s.resets →
      countE s.channel n = 0 ∧ countR s.channel n = 0) := by
  have hinit : PInv ⟨1, [], [], [], []⟩ := by
    refine ⟨le_refl 1, rfl, ?_, ?_, ?_, ?_, ?_, ?_⟩
    · intro n; simp [countE]
    · intro n; simp [countR]
    · intro n; simp
    · intro n hn; cases hn
    · intro n hn; cases hn
    · intro n ⟨hn, _⟩; cases hn
  obtain ⟨h1, hbg, hce, hcr, hch, hse, hsr, hdisj⟩ := runP_inv_aux ops _ hinit h
  refine ⟨hbg, ?_, ?_, ?_, ?_, ?_⟩
  · intro i hi
    show s.begun[i] = i + 1
    simp only [hbg]
    rw [List.getElem_range']
    omega
  · rw [hbg]
    exact List.pairwise_lt_range' _ _
  · intro n hn
    refine ⟨hse n hn, ?_, ?_⟩
    · rw [hce]
      simp [hn]
    · rw [hcr]
      have : ¬ n ∈ s.resets := fun hc => hdisj n ⟨hn, hc⟩
      simp [this]
  · intro n hn
    refine ⟨hsr n hn, ?_, ?_⟩
    · rw [hcr]
      simp [hn]
    · rw [hce]
      have : ¬ n ∈ s.ended := fun hc => hdisj n ⟨hc, hn⟩
      simp [this]
  · intro n hne hnr
    constructor
    · rw [hce]; simp [hne]
    · rw [hcr]; simp [hnr]

/-- C7 witness: the sequence-numbering theorem applied to the run
begin, begin, end(1), reset(2), begin. -/
theorem parallelQueue_sequence_numbers_witness :
    runP [POp.begin, POp.begin, POp.finish 1 42, POp.reset 2, POp.begin] =
      some { first_unallocated := 4, begun := [1, 2, 3], ended := [1],
             resets := [2], channel := [Msg.execute 42 1, Msg.reset 2] } ∧
    (([1, 2, 3] : List Nat) = List.range' 1 (4 - 1) ∧
     (∀ i, ∀ hi : i < ([1, 2, 3] : List Nat).length,
       ([1, 2, 3] : List Nat).get ⟨i, hi⟩ = i + 1) ∧
     ([1, 2, 3] : List Nat).Pairwise (· < ·) ∧
     (∀ n ∈ ([1] : List Nat), n ∈ ([1, 2, 3] : List Nat) ∧
       countE [Msg.execute 42 1, Msg.reset 2] n = 1 ∧
       countR [Msg.execute 42 1, Msg.reset 2] n = 0) ∧
     (∀ n ∈ ([2] : List Nat), n ∈ ([1, 2, 3] : List Nat) ∧
       countR [Msg.execute 42 1, Msg.reset 2] n = 1 ∧
       countE [Msg.execute 42 1, Msg.reset 2] n = 0) ∧
     (∀ n, ¬ n ∈ ([1] : List Nat) → ¬ n ∈ ([2] : List Nat) →
       countE [Msg.execute 42 1, Msg.reset 2] n = 0 ∧
       countR [Msg.execute 42 1, Msg.reset 2] n = 0)) :=
  ⟨by decide,
   parallelQueue_sequence_numbers
     [POp.begin, POp.begin, POp.finish 1 42, POp.reset 2, POp.begin]
     { first_unallocated := 4, begun := [1, 2, 3], ended := [1],
       resets := [2], channel := [Msg.execute 42 1, Msg.reset 2] }
     (by decide)⟩

/-! ## StagingArena (staging_arena.rs) and StagingRing (staging_ring.rs)

A backing buffer/memory pair is modelled by an id (standing for the
Vulkan handles) and a size; fresh device allocations take the next id
from a counter carried in the state. -/

structure BackingMem where
  id : Nat
  size : Nat
deriving DecidableEq, Repr

structure StagingArena where
  mem : BackingMem
  old : List BackingMem
  cursor : Nat
  capacity : Nat
  next_id : Nat
deriving DecidableEq, Repr

structure SAAlloc where
  buffer : Nat
  offset : Nat
  size : Nat
deriving DecidableEq, Repr

/-- Embeds `StagingArena::alloc`.  On insufficient space the new backing
buffer has size `self.capacity.max(1024) * 2` — independent of the
request — and the source leaves the `capacity` field unchanged. -/
def StagingArena.alloc (a : StagingArena) (size : Nat) : StagingArena × SAAlloc :=
  let offset := a.cursor
  let en := offset + size
  if en > a.capacity then
    let newMem : BackingMem := ⟨a.next_id, max a.capacity 1024 * 2⟩
    ({ a with mem := newMem, old := a.old ++ [a.mem],
              next_id := a.next_id + 1, cursor := size },
     ⟨newMem.id, 0, size⟩)
  else
    ({ a with cursor := en }, ⟨a.mem.id, offset, size⟩)

/-- Embeds the private `RingState` of staging_ring.rs (no capacity field;
it is passed to `alloc`, whose subtractions are unchecked as in
`TimelineRing.alloc`, so `none` is a panic). -/
structure SRState where
  head : Nat
  tail : Nat
deriving DecidableEq, Repr

def SRState.new : SRState := ⟨0, 0⟩

def SRState.alloc (s : SRState) (capacity size align : Nat) :
    Option (Option Nat × SRState) :=
  if align = 0 then none
  else if s.tail < s.head then
    if s.head < size then none
    else
      let unaligned := s.head - size
      let aligned := unaligned - unaligned % align
      if aligned ≤ s.tail then some (none, s)
      else some (some aligned, { s with head := aligned })
  else
    if size ≤ s.head then
      let u := s.head - size
      let aligned := u - u % align
      some (some aligned, { s with head := aligned })
    else if capacity < size then none
    else
      let unaligned := capacity - size
      let aligned := unaligned - unaligned % align
      if aligned ≤ s.tail then some (none, s)
      else some (some aligned, { s with head := aligned })

structure StagingRing where
  state : SRState
  align : Nat
  buffer : BackingMem
  old : List BackingMem
  next_id : Nat
deriving DecidableEq, Repr

structure SRAlloc where
  buffer : Nat
  offset : Nat
deriving DecidableEq, Repr

/-- Embeds `StagingRing::grow`: the replacement buffer's size is
`min_increment.max(self.buffer.size * 2)`, the old buffer joins the
retired list (handed to the Graveyard at the next `begin_frame`), and
the ring state is reset. -/
def StagingRing.grow (r : StagingRing) (min_increment : Nat) : StagingRing :=
  let new_size := max min_increment (r.buffer.size * 2)
  { r with buffer := ⟨r.next_id, new_size⟩, old := r.old ++ [r.buffer],
           next_id := r.next_id + 1, state := SRState.new }

/-- Embeds `StagingRing::alloc`: try the ring, grow on `None` and retry;
the `expect` on a second failure panics (`none`). -/
def StagingRing.alloc (r : StagingRing) (n align0 : Nat) :
    Option (StagingRing × SRAlloc) :=
  match SRState.alloc r.state r.buffer.size n (max r.align align0) with
  | none => none
  | some (some off, st) => some ({ r with state := st }, ⟨r.buffer.id, off⟩)
  | some (none, _) =>
    let r2 := r.grow n
    match SRState.alloc r2.state r2.buffer.size n (max r.align align0) with
    | none => none
    | some (some off, st) => some ({ r2 with state := st }, ⟨r2.buffer.id, off⟩)
    | some (none, _) => none

/-- C6 counterexample: the claim says the replacement buffer's capacity is
the larger of twice the old capacity and the requested size, and that the
triggering allocation then fits inside it; `StagingArena` with capacity 16
asked for 4096 bytes builds a 2048-byte buffer (`capacity.max(1024) * 2`,
ignoring the request) and returns an allocation extending past its end. -/
theorem stagingArena_grow_counterexample :
    (StagingArena.alloc ⟨⟨0, 16⟩, [], 0, 16, 1⟩ 4096).1.mem.size = 2048 ∧
    (StagingArena.alloc ⟨⟨0, 16⟩, [], 0, 16, 1⟩ 4096).2.offset = 0 ∧
    (StagingArena.alloc ⟨⟨0, 16⟩, [], 0, 16, 1⟩ 4096).2.size = 4096 ∧
    (2048 : Nat) ≠ max (2 * 16) 4096 ∧
    ¬ ((StagingArena.alloc ⟨⟨0, 16⟩, [], 0, 16, 1⟩ 4096).2.offset +
        (StagingArena.alloc ⟨⟨0, 16⟩, [], 0, 16, 1⟩ 4096).2.size ≤
       (StagingArena.alloc ⟨⟨0, 16⟩, [], 0, 16, 1⟩ 4096).1.mem.size) := by
  refine ⟨?_, ?_, ?_, ?_, ?_⟩ <;> decide

/-- C6 amended: for the ring staging layer, an `alloc` whose ring request
fails with NoSpace replaces the buffer with a fresh one of capacity
`max(requested, 2 × old)`, retires the old buffer onto the deferred list
instead of destroying it, resets the ring state, and — provided the new
capacity exceeds the request by at least the effective alignment — the
retried allocation succeeds at an aligned offset entirely within the new
buffer.  (The bump-arena staging layer instead grows to
`2 · max(old capacity, 1024)` regardless of the request and keeps its
stale `capacity` field, as the counterexample shows.) -/
theorem stagingRing_grow_spec (r : StagingRing) (n align0 : Nat)
    (hfail : SRState.alloc r.state r.buffer.size n (max r.align align0) =
      some (none, r.state))
    (hn : 1 ≤ n)
    (hroom : n + max r.align align0 ≤ max n (r.buffer.size * 2)) :
    ∃ st off,
      r.alloc n align0 =
        some ({ state := st, align := r.align,
                buffer := ⟨r.next_id, max n (r.buffer.size * 2)⟩,
                old := r.old ++ [r.buffer], next_id := r.next_id + 1 },
              ⟨r.next_id, off⟩) ∧
      off + n ≤ max n (r.buffer.size * 2) ∧
      off % (max r.align align0) = 0 := by
  have hal : ¬ max r.align align0 = 0 := by
    intro h0
    rw [SRState.alloc, if_pos h0] at hfail
    exact absurd hfail (by simp)
  have hB : max r.align align0 ≤ max n (r.buffer.size * 2) - n := by omega
  have hA : (max n (r.buffer.size * 2) - n) % (max r.align align0) <
      max r.align align0 := Nat.mod_lt _ (by omega)
  have hsecond : SRState.alloc SRState.new (max n (r.buffer.size * 2)) n
      (max r.align align0) =
      some (some (max n (r.buffer.size * 2) - n -
              (max n (r.buffer.size * 2) - n) % (max r.align align0)),
            ⟨max n (r.buffer.size * 2) - n -
              (max n (r.buffer.size * 2) - n) % (max r.align align0), 0⟩) := by
    rw [SRState.alloc, if_neg hal,
      if_neg (show ¬ SRState.new.tail < SRState.new.head by decide),
      if_neg (show ¬ n ≤ SRState.new.head by show ¬ n ≤ 0; omega),
      if_neg (show ¬ max n (r.buffer.size * 2) < n by omega),
      if_neg (show ¬ (max n (r.buffer.size * 2) - n -
        (max n (r.buffer.size * 2) - n) % (max r.align align0) ≤
        SRState.new.tail) by show ¬ (_ ≤ 0); omega)]
    rfl
  refine ⟨⟨max n (r.buffer.size * 2) - n -
      (max n (r.buffer.size * 2) - n) % (max r.align align0), 0⟩,
    max n (r.buffer.size * 2) - n -
      (max n (r.buffer.size * 2) - n) % (max r.align align0),
    ?_, by omega, aligned_mod hal⟩
  simp only [StagingRing.alloc, hfail, StagingRing.grow, hsecond]

/-- C6 amended witness: a wrapped ring (head 2, tail 1) of capacity 4 and
unit alignment cannot serve a 2-byte request; the grow-and-retry path
produces an 8-byte buffer and offset 6. -/
theorem stagingRing_grow_spec_witness :
    SRState.alloc (⟨2, 1⟩ : SRState) 4 2 (max 1 1) = some (none, ⟨2, 1⟩) ∧
    (1 : Nat) ≤ 2 ∧
    2 + max 1 1 ≤ max 2 (4 * 2) ∧
    (∃ st off,
      StagingRing.alloc ⟨⟨2, 1⟩, 1, ⟨0, 4⟩, [], 1⟩ 2 1 =
        some ({ state := st, align := 1, buffer := ⟨1, max 2 (4 * 2)⟩,
                old := [] ++ [⟨0, 4⟩], next_id := 1 + 1 },
              ⟨1, off⟩) ∧
      off + 2 ≤ max 2 (4 * 2) ∧
      off % (max 1 1) = 0) :=
  ⟨by decide, by decide, by decide,
   stagingRing_grow_spec ⟨⟨2, 1⟩, 1, ⟨0, 4⟩, [], 1⟩ 2 1
     (by decide) (by decide) (by decide)⟩
